import Mathlib

/-!
Shallow embedding of the ACE-RISCV security monitor core: the G-stage
page-table engine (`page_table.rs`, `paging_system.rs`) and the confidential
hart (`confidential_hart.rs`).  Modules of the repository that these files use
but whose sources are not available (`page_table_entry.rs`,
`page_table_memory.rs`, the memory tracker, `hart.rs`, the transformations
module) are modelled from the specification; each such definition carries a
doc comment starting with `Modelled from the spec:`.

Machine integers are modelled as `Nat`; bit extraction uses explicit shifts
and masks exactly as the source writes them.
-/

namespace ACE

/-- Error kinds of the security monitor (spec section 7; `error.rs` is not in
the sources, the variant names are taken from their uses in `page_table.rs`
and `confidential_hart.rs`). -/
inductive Error : Type where
  | OutOfMemory : Error
  | PageTableCorrupted : Error
  | PageTableConfiguration : Error
  | InvalidRiscvInstruction : Nat → Error
  | PendingRequest : Error
  | InvalidAddress : Error
deriving DecidableEq

/-- `PageTableLevel` from `paging_system.rs`. -/
inductive PageTableLevel : Type where
  | Level5 : PageTableLevel
  | Level4 : PageTableLevel
  | Level3 : PageTableLevel
  | Level2 : PageTableLevel
  | Level1 : PageTableLevel
deriving DecidableEq

/-- `PageTableLevel::lower` from `paging_system.rs`. -/
def PageTableLevel.lower : PageTableLevel → Option PageTableLevel
  | .Level5 => some .Level4
  | .Level4 => some .Level3
  | .Level3 => some .Level2
  | .Level2 => some .Level1
  | .Level1 => none

/-- Numeric depth of a level (5 for the root, 1 for the lowest); used as the
structural recursion depth of the deep copy, which in the source recurses on
`level.lower()`. -/
def PageTableLevel.depth : PageTableLevel → Nat
  | .Level5 => 5
  | .Level4 => 4
  | .Level3 => 3
  | .Level2 => 2
  | .Level1 => 1

/-- Page size classes (spec section 3; the `PageSize` module is not in the
sources). -/
inductive PageSize : Type where
  | Size4KiB : PageSize
  | Size2MiB : PageSize
  | Size1GiB : PageSize
  | Size512GiB : PageSize
  | Size128TiB : PageSize
deriving DecidableEq

/-- Modelled from the spec: byte size of each size class. -/
def PageSize.in_bytes : PageSize → Nat
  | .Size4KiB => 4096
  | .Size2MiB => 2 * 1024 * 1024
  | .Size1GiB => 1024 * 1024 * 1024
  | .Size512GiB => 512 * 1024 * 1024 * 1024
  | .Size128TiB => 128 * 1024 * 1024 * 1024 * 1024

/-- `PagingSystem` from `paging_system.rs`: only the 5-level `Sv57x4` mode. -/
inductive PagingSystem : Type where
  | Sv57x4 : PagingSystem
deriving DecidableEq

/-- `PagingSystem::levels` from `paging_system.rs`. -/
def PagingSystem.levels : PagingSystem → PageTableLevel
  | .Sv57x4 => .Level5

/-- `PagingSystem::entry_size` from `paging_system.rs`. -/
def PagingSystem.entry_size : PagingSystem → Nat
  | .Sv57x4 => 8

/-- `PagingSystem::entries` from `paging_system.rs`: the root table is
extended by 2 bits (2048 entries), the inner tables have 512 entries. -/
def PagingSystem.entries (ps : PagingSystem) (level : PageTableLevel) : Nat :=
  match ps, level with
  | .Sv57x4, .Level5 => 1 <<< 11
  | .Sv57x4, _ => 1 <<< 9

/-- `PagingSystem::size_in_bytes` from `paging_system.rs`. -/
def PagingSystem.size_in_bytes (ps : PagingSystem) (level : PageTableLevel) : Nat :=
  ps.entries level * ps.entry_size

/-- `PagingSystem::configuration_pages` from `paging_system.rs`. -/
def PagingSystem.configuration_pages (ps : PagingSystem) (level : PageTableLevel) : Nat :=
  ps.size_in_bytes level / PageSize.in_bytes .Size4KiB

/-- `PagingSystem::vpn` from `paging_system.rs`.  The confidential VM virtual
address is a plain machine word. -/
def PagingSystem.vpn (ps : PagingSystem) (virtual_address : Nat) (level : PageTableLevel) : Nat :=
  match ps, level with
  | .Sv57x4, .Level5 => (virtual_address >>> 48) &&& 0x3ff
  | .Sv57x4, .Level4 => (virtual_address >>> 39) &&& 0x1ff
  | .Sv57x4, .Level3 => (virtual_address >>> 30) &&& 0x1ff
  | .Sv57x4, .Level2 => (virtual_address >>> 21) &&& 0x1ff
  | .Sv57x4, .Level1 => (virtual_address >>> 12) &&& 0x1ff

/-- `PagingSystem::page_size` from `paging_system.rs`. -/
def PagingSystem.page_size (ps : PagingSystem) (level : PageTableLevel) : PageSize :=
  match ps, level with
  | .Sv57x4, .Level5 => .Size128TiB
  | .Sv57x4, .Level4 => .Size512GiB
  | .Sv57x4, .Level3 => .Size1GiB
  | .Sv57x4, .Level2 => .Size2MiB
  | .Sv57x4, .Level1 => .Size4KiB

/-- Modelled from the spec: the two disjoint physical regions fixed at boot,
confidential memory (owned by the security monitor) and non-confidential
memory (hypervisor visible).  Addresses are tagged by checking them against
these ranges. -/
structure MemoryLayout : Type where
  conf_start : Nat
  conf_end : Nat
  non_conf_start : Nat
  non_conf_end : Nat
deriving DecidableEq

/-- An address lies inside confidential memory. -/
def MemoryLayout.isConfidential (m : MemoryLayout) (a : Nat) : Bool :=
  decide (m.conf_start ≤ a ∧ a < m.conf_end)

/-- An address lies inside non-confidential memory. -/
def MemoryLayout.isNonConfidential (m : MemoryLayout) (a : Nat) : Bool :=
  decide (m.non_conf_start ≤ a ∧ a < m.non_conf_end)

/-- Modelled from the spec: `NonConfidentialMemoryAddress::new` is the
checked conversion that accepts only addresses inside the non-confidential
region (`memory_tracker` module, not in the sources). -/
def NonConfidentialMemoryAddress.new (m : MemoryLayout) (a : Nat) : Except Error Nat :=
  if m.isNonConfidential a then .ok a else .error .InvalidAddress

/-- Modelled from the spec: a `Page` is an owned, aligned region of
confidential memory at a known size class (`memory_tracker` module, not in
the sources).  Only its base address and size class matter to the claims. -/
structure Page : Type where
  base : Nat
  size : PageSize
deriving DecidableEq

/-- Modelled from the spec: the Memory Tracker is a pool of free confidential
pages.  Contiguity of multi-page allocations is not modelled; `acquire`
returns the first matching pages of the requested size class. -/
structure MemoryTracker : Type where
  pool : List Page
deriving DecidableEq

/-- Modelled from the spec: `MemoryTracker::acquire_continous_pages (n, size)`
returns `n` pages of the requested class or fails with `OutOfMemory`.  The
spelling `continous` follows the source. -/
def MemoryTracker.acquire_continous_pages (t : MemoryTracker) (n : Nat) (s : PageSize) :
    Except Error (List Page × MemoryTracker) :=
  if n ≤ (t.pool.filter (fun p => p.size = s)).length then
    .ok ((t.pool.filter (fun p => p.size = s)).take n,
      ⟨t.pool.filter (fun p => ¬ p.size = s) ++ (t.pool.filter (fun p => p.size = s)).drop n⟩)
  else
    .error .OutOfMemory

/-- Modelled from the spec: `MemoryTracker::release_page` returns one page to
the pool. -/
def MemoryTracker.release_page (t : MemoryTracker) (p : Page) : MemoryTracker :=
  ⟨p :: t.pool⟩

/-- `PageTableBits::is_valid`: bit 0 of the raw word (standard RISC-V PTE
format, spec section 6; `page_table_entry.rs` is not in the sources). -/
def PageTableBits.is_valid (raw : Nat) : Bool :=
  raw &&& 1 = 1

/-- `PageTableBits::is_leaf`: any of the R/W/X bits (1,2,3) set.  Modelled
from the spec ("R/W/X bits indicate data page"). -/
def PageTableBits.is_leaf (raw : Nat) : Bool :=
  (raw >>> 1) &&& 0b111 ≠ 0

/-- `PageTableAddress::decode`: the PPN field occupies bits 10..53 and is the
target address shifted right by 12.  Modelled from the spec. -/
def PageTableAddress.decode (raw : Nat) : Nat :=
  ((raw >>> 10) &&& (2 ^ 44 - 1)) <<< 12

/-- `PageTableAddress::encode`: inverse direction of `decode`.  Modelled from
the spec. -/
def PageTableAddress.encode (a : Nat) : Nat :=
  ((a >>> 12) &&& (2 ^ 44 - 1)) <<< 10

/-- Modelled from the spec: the permission bits R(1), W(2), X(3) of a page
table entry (`page_table_entry.rs` is not in the sources). -/
structure PageTablePermission : Type where
  read : Bool
  write : Bool
  execute : Bool
deriving DecidableEq

/-- Modelled from the spec: extract the permission bits from a raw word. -/
def PageTablePermission.decode (raw : Nat) : PageTablePermission :=
  ⟨raw.testBit 1, raw.testBit 2, raw.testBit 3⟩

/-- Modelled from the spec: permission bits of a shared page: read and write
set, execute disallowed. -/
def PageTablePermission.shared_page_permission : PageTablePermission :=
  ⟨true, true, false⟩

/-- Modelled from the spec: render the permission bits into the raw word. -/
def PageTablePermission.encode (p : PageTablePermission) : Nat :=
  (cond p.read 2 0) + (cond p.write 4 0) + (cond p.execute 8 0)

/-- Modelled from the spec: the configuration bits U(4), G(5), A(6), D(7) of
a page table entry. -/
structure PageTableConfiguration : Type where
  user : Bool
  global : Bool
  accessed : Bool
  dirty : Bool
deriving DecidableEq

/-- Modelled from the spec: extract the configuration bits from a raw word. -/
def PageTableConfiguration.decode (raw : Nat) : PageTableConfiguration :=
  ⟨raw.testBit 4, raw.testBit 5, raw.testBit 6, raw.testBit 7⟩

/-- `PageTableConfiguration::empty`: all configuration bits clear. -/
def PageTableConfiguration.empty : PageTableConfiguration :=
  ⟨false, false, false, false⟩

/-- Modelled from the spec: configuration of a shared page: the user bit is
set (valid + user + read + write, execute disallowed). -/
def PageTableConfiguration.shared_page_configuration : PageTableConfiguration :=
  ⟨true, false, true, true⟩

/-- Modelled from the spec: render the configuration bits into the raw
word. -/
def PageTableConfiguration.encode (c : PageTableConfiguration) : Nat :=
  (cond c.user 16 0) + (cond c.global 32 0) + (cond c.accessed 64 0) + (cond c.dirty 128 0)

/-- Modelled from the spec: `PageTableMemory` is the backing region of one
page table: pages acquired from the Memory Tracker holding one raw 64-bit
word per entry (`page_table_memory.rs` is not in the sources). -/
structure PageTableMemory : Type where
  pages : List Page
  rawWords : List Nat
deriving DecidableEq

/-- `PageTableMemory::start_address`: the base of the backing region. -/
def PageTableMemory.start_address (m : PageTableMemory) : Nat :=
  match m.pages with
  | [] => 0
  | p :: _ => p.base

/-- `PageTableMemory::number_of_entries`. -/
def PageTableMemory.number_of_entries (m : PageTableMemory) : Nat :=
  m.rawWords.length

mutual

/-- `PageTableEntry` from `page_table_entry.rs` (the tagged variant is
described in spec section 3): `NotValid`, `Leaf` (owns a confidential page),
`Pointer` (owns a child table), `Shared` (a hypervisor physical address, not
owned). -/
inductive PageTableEntry : Type where
  | NotValid : PageTableEntry
  | Leaf : Page → PageTableConfiguration → PageTablePermission → PageTableEntry
  | Pointer : PageTable → PageTableConfiguration → PageTableEntry
  | Shared : Nat → PageTableConfiguration → PageTablePermission → PageTableEntry

/-- `PageTable` from `page_table.rs`: a level, the backing
`page_table_memory` and the logical entry sequence. -/
inductive PageTable : Type where
  | mk : PageTableLevel → PageTableMemory → List PageTableEntry → PageTable

end

/-- Field accessor corresponding to `PageTable.level`. -/
def PageTable.level : PageTable → PageTableLevel
  | .mk l _ _ => l

/-- Field accessor corresponding to `PageTable.page_table_memory`. -/
def PageTable.page_table_memory : PageTable → PageTableMemory
  | .mk _ m _ => m

/-- Field accessor corresponding to `PageTable.entries`. -/
def PageTable.entries : PageTable → List PageTableEntry
  | .mk _ _ es => es

/-- `PageTable::address` from `page_table.rs`. -/
def PageTable.address (t : PageTable) : Nat :=
  t.page_table_memory.start_address

mutual

/-- Number of nodes of the page-table tree (one per table and one per entry);
used as the fuel of `PageTable.map_shared_page`, whose recursion depth it
strictly bounds. -/
def PageTable.treeSize : PageTable → Nat
  | .mk _ _ entries => 1 + PageTableEntry.listTreeSize entries

/-- Sum of the node counts of a list of entries. -/
def PageTableEntry.listTreeSize : List PageTableEntry → Nat
  | [] => 0
  | e :: rest => PageTableEntry.entryTreeSize e + PageTableEntry.listTreeSize rest

/-- Node count of one entry: a `Pointer` adds its child's subtree. -/
def PageTableEntry.entryTreeSize : PageTableEntry → Nat
  | .Pointer child _ => 1 + PageTable.treeSize child
  | _ => 1

end

/-- Modelled from the spec: the raw 64-bit word encoding a logical entry, in
the standard RISC-V PTE format: valid(0), R(1), W(2), X(3), U(4), G(5), A(6),
D(7), PPN(10..53); encoded identically for `Leaf`, `Pointer` and `Shared`,
each pointing at its target (the owned page, the child backing region, the
hypervisor address); `NotValid` is the all-zero word. -/
def PageTableEntry.encode : PageTableEntry → Nat
  | .NotValid => 0
  | .Leaf page configuration permission =>
    PageTableAddress.encode page.base + configuration.encode + permission.encode + 1
  | .Pointer child configuration =>
    PageTableAddress.encode child.address + configuration.encode + 1
  | .Shared address configuration permission =>
    PageTableAddress.encode address + configuration.encode + permission.encode + 1

/-- `PageTableMemory::entry`: the raw word at an index. -/
def PageTableMemory.entry (m : PageTableMemory) (index : Nat) : Option Nat :=
  m.rawWords.get? index

/-- Modelled from the spec: `PageTableMemory::set_entry` mirrors a logical
entry into the backing-region raw word at the same index. -/
def PageTableMemory.set_entry (m : PageTableMemory) (index : Nat) (entry : PageTableEntry) :
    PageTableMemory :=
  ⟨m.pages, m.rawWords.set index entry.encode⟩

/-- Modelled from the spec: `PageTableMemory::copy_from_non_confidential_memory`
allocates `configuration_pages(level)` confidential pages from the Memory
Tracker and snapshots the raw entry words from non-confidential memory.
`ncm` maps a non-confidential byte address to the 64-bit word stored there. -/
def PageTableMemory.copy_from_non_confidential_memory (ncm : Nat → Nat) (address : Nat)
    (ps : PagingSystem) (level : PageTableLevel) (t : MemoryTracker) :
    Except Error (PageTableMemory × MemoryTracker) :=
  match t.acquire_continous_pages (ps.configuration_pages level) .Size4KiB with
  | .error e => .error e
  | .ok (pages, t1) =>
    .ok (⟨pages, (List.range (ps.entries level)).map (fun i => ncm (address + ps.entry_size * i))⟩, t1)

/-- Modelled from the spec: `PageTableMemory::empty` allocates a zeroed
backing region for a table at the given level. -/
def PageTableMemory.empty (ps : PagingSystem) (level : PageTableLevel) (t : MemoryTracker) :
    Except Error (PageTableMemory × MemoryTracker) :=
  match t.acquire_continous_pages (ps.configuration_pages level) .Size4KiB with
  | .error e => .error e
  | .ok (pages, t1) => .ok (⟨pages, List.replicate (ps.entries level) 0⟩, t1)

/-- `PageTable::set_entry` from `page_table.rs`: mirror the entry into the
backing raw word, replace the logical entry, and release the displaced page
to the Memory Tracker when the replaced entry was a `Leaf`.  The tracker is
threaded explicitly in place of the process-wide `MemoryTracker` state. -/
def PageTable.set_entry (t : PageTable) (tr : MemoryTracker) (index : Nat)
    (entry : PageTableEntry) : PageTable × MemoryTracker :=
  match t with
  | .mk level mem entries =>
    let mem1 := mem.set_entry index entry
    let entry_to_remove := entries.getD index .NotValid
    let tr1 := match entry_to_remove with
      | .Leaf page _ _ => tr.release_page page
      | _ => tr
    (.mk level mem1 (entries.set index entry), tr1)

/-- The body of the per-index closure of
`PageTable::copy_from_non_confidential_memory` (`page_table.rs` lines
57-77): decode one raw word into a logical entry, recursing through `f` for
pointer entries.  The byte copy of a leaf page's content is not tracked by
the model, so the `copy_from_non_confidential_memory` call on the acquired
page is elided. -/
def PageTable.copy_entry_step
    (f : Nat → PageTableLevel → MemoryTracker → Except Error (PageTable × MemoryTracker))
    (layout : MemoryLayout) (ps : PagingSystem) (level : PageTableLevel)
    (entry_raw : Nat) (t : MemoryTracker) :
    Except Error (PageTableEntry × MemoryTracker) :=
  if ¬ PageTableBits.is_valid entry_raw then
    .ok (.NotValid, t)
  else if PageTableBits.is_leaf entry_raw then
    match NonConfidentialMemoryAddress.new layout (PageTableAddress.decode entry_raw) with
    | .error e => .error e
    | .ok _address =>
      match t.acquire_continous_pages 1 (ps.page_size level) with
      | .error e => .error e
      | .ok (acquired, t1) =>
        .ok (.Leaf (acquired.headD ⟨0, ps.page_size level⟩)
          (PageTableConfiguration.decode entry_raw)
          (PageTablePermission.decode entry_raw), t1)
  else
    match level.lower with
    | none => .error .PageTableCorrupted
    | some lower_level =>
      match NonConfidentialMemoryAddress.new layout (PageTableAddress.decode entry_raw) with
      | .error e => .error e
      | .ok address =>
        match f address lower_level t with
        | .error e => .error e
        | .ok (child, t1) =>
          .ok (.Pointer child (PageTableConfiguration.decode entry_raw), t1)

/-- The per-index loop of `PageTable::copy_from_non_confidential_memory`
(`page_table.rs` lines 55-81): for each index of the backing region, decode
the raw word into a logical entry, then mirror the constructed entry back
into the backing region.  `index` counts up while `remaining` counts down,
mirroring `page_table_memory.indices()`. -/
def PageTable.copy_entries_loop
    (f : Nat → PageTableLevel → MemoryTracker → Except Error (PageTable × MemoryTracker))
    (layout : MemoryLayout) (ps : PagingSystem) (level : PageTableLevel) :
    Nat → Nat → PageTableMemory → MemoryTracker →
    Except Error (List PageTableEntry × PageTableMemory × MemoryTracker)
  | _, 0, mem, t => .ok ([], mem, t)
  | index, remaining + 1, mem, t =>
    match PageTable.copy_entry_step f layout ps level (mem.rawWords.getD index 0) t with
    | .error e => .error e
    | .ok (page_table_entry, t1) =>
      match copy_entries_loop f layout ps level (index + 1) remaining
          (mem.set_entry index page_table_entry) t1 with
      | .error e => .error e
      | .ok (es, mem2, t2) => .ok (page_table_entry :: es, mem2, t2)

/-- `PageTable::copy_from_non_confidential_memory` (`page_table.rs` lines
51-83), with the recursion on `level.lower()` realised through a fuel
parameter.  The wrapper below instantiates the fuel with `level.depth`, which
matches the recursion depth exactly (each recursive call passes the lower
level together with one unit less fuel), so the fuel-zero branch is never
reached. -/
def PageTable.copy_aux (ncm : Nat → Nat) (layout : MemoryLayout) (ps : PagingSystem) :
    Nat → Nat → PageTableLevel → MemoryTracker → Except Error (PageTable × MemoryTracker)
  | 0, _, _, _ => .error .PageTableCorrupted
  | fuel + 1, address, level, t =>
    match PageTableMemory.copy_from_non_confidential_memory ncm address ps level t with
    | .error e => .error e
    | .ok (page_table_memory, t1) =>
      match PageTable.copy_entries_loop (PageTable.copy_aux ncm layout ps fuel) layout ps level
          0 page_table_memory.number_of_entries page_table_memory t1 with
      | .error e => .error e
      | .ok (entries, mem1, t2) => .ok (.mk level mem1 entries, t2)

/-- `PageTable::copy_from_non_confidential_memory` from `page_table.rs`. -/
def PageTable.copy_from_non_confidential_memory (ncm : Nat → Nat) (layout : MemoryLayout)
    (address : Nat) (ps : PagingSystem) (level : PageTableLevel) (t : MemoryTracker) :
    Except Error (PageTable × MemoryTracker) :=
  PageTable.copy_aux ncm layout ps level.depth address level t

/-- `PageTable::empty` from `page_table.rs`: a backing region plus
`Vec::with_capacity(..)`, which is a vector of length zero, so the logical
entry sequence of an empty table is the empty list. -/
def PageTable.empty (ps : PagingSystem) (level : PageTableLevel) (t : MemoryTracker) :
    Except Error (PageTable × MemoryTracker) :=
  match PageTableMemory.empty ps level t with
  | .error e => .error e
  | .ok (page_table_memory, t1) => .ok (.mk level page_table_memory [], t1)

/-- Modelled from the spec: a `SharedPage` carries the hypervisor physical
address and the confidential VM's virtual address of a 4 KiB page exposed to
the hypervisor (`memory_tracker` module, not in the sources). -/
structure SharedPage : Type where
  hypervisor_address : Nat
  confidential_vm_virtual_address : Nat
deriving DecidableEq

/-- `PageTable::map_shared_page` (`page_table.rs` lines 94-141), with the
recursion realised through a fuel parameter.  The wrapper below instantiates
the fuel with `t.treeSize + 1`: every recursive call on a `Pointer` child
strictly shrinks the tree, and the recursive call on a freshly created empty
table returns at its first entry lookup (the empty table's entry list has
length zero), so with that fuel the fuel-zero branch is never reached and
the model agrees with the source on every input.  Errors leave the tree and
the tracker as they were (in the source the partially built child is dropped
and its backing pages return to the pool, which restores the pool's page
multiset). -/
def PageTable.map_aux (ps : PagingSystem) (shared_page : SharedPage) :
    Nat → PageTable → MemoryTracker → Except Error (PageTable × MemoryTracker)
  | 0, _, _ => .error .PageTableConfiguration
  | fuel + 1, .mk level mem entries, t =>
    let virtual_page_number := ps.vpn shared_page.confidential_vm_virtual_address level
    match entries.get? virtual_page_number with
    | none => .error .PageTableConfiguration
    | some (.Pointer next_page_table cfg) =>
      match map_aux ps shared_page fuel next_page_table t with
      | .error e => .error e
      | .ok (next1, t1) =>
        .ok (.mk level mem (entries.set virtual_page_number (.Pointer next1 cfg)), t1)
    | some (.Leaf _ _ _) =>
      .ok (PageTable.set_entry (.mk level mem entries) t virtual_page_number
        (.Shared shared_page.hypervisor_address
          PageTableConfiguration.shared_page_configuration
          PageTablePermission.shared_page_permission))
    | some (.Shared _ _ _) =>
      .ok (PageTable.set_entry (.mk level mem entries) t virtual_page_number
        (.Shared shared_page.hypervisor_address
          PageTableConfiguration.shared_page_configuration
          PageTablePermission.shared_page_permission))
    | some .NotValid =>
      if level = PageTableLevel.Level1 then
        .ok (PageTable.set_entry (.mk level mem entries) t virtual_page_number
          (.Shared shared_page.hypervisor_address
            PageTableConfiguration.shared_page_configuration
            PageTablePermission.shared_page_permission))
      else
        match PageTable.empty ps level t with
        | .error e => .error e
        | .ok (next_page_table, t1) =>
          match map_aux ps shared_page fuel next_page_table t1 with
          | .error e => .error e
          | .ok (next1, t2) =>
            .ok (PageTable.set_entry (.mk level mem entries) t2 virtual_page_number
              (.Pointer next1 PageTableConfiguration.empty))

/-- `PageTable::map_shared_page` from `page_table.rs`. -/
def PageTable.map_shared_page (ps : PagingSystem) (t : PageTable) (shared_page : SharedPage)
    (tr : MemoryTracker) : Except Error (PageTable × MemoryTracker) :=
  PageTable.map_aux ps shared_page (t.treeSize + 1) t tr

/-- `RootPageTable` from `page_table.rs`. -/
structure RootPageTable : Type where
  paging_system : PagingSystem
  page_table : PageTable

/-- `RootPageTable::copy_from_non_confidential_memory` from `page_table.rs`. -/
def RootPageTable.copy_from_non_confidential_memory (ncm : Nat → Nat) (layout : MemoryLayout)
    (address : Nat) (ps : PagingSystem) (t : MemoryTracker) :
    Except Error (RootPageTable × MemoryTracker) :=
  match PageTable.copy_from_non_confidential_memory ncm layout address ps ps.levels t with
  | .error e => .error e
  | .ok (page_table, t1) => .ok (⟨ps, page_table⟩, t1)

/-- `RootPageTable::map_shared_page` from `page_table.rs`. -/
def RootPageTable.map_shared_page (rt : RootPageTable) (shared_page : SharedPage)
    (tr : MemoryTracker) : Except Error (RootPageTable × MemoryTracker) :=
  match PageTable.map_shared_page rt.paging_system rt.page_table shared_page tr with
  | .error e => .error e
  | .ok (page_table, tr1) => .ok (⟨rt.paging_system, page_table⟩, tr1)

/-- A page lies in confidential memory. -/
def Page.isConfidential (m : MemoryLayout) (p : Page) : Bool :=
  m.isConfidential p.base

/-- Every page of the tracker's free pool lies in confidential memory. -/
def MemoryTracker.allConfidential (m : MemoryLayout) (t : MemoryTracker) : Bool :=
  t.pool.all (Page.isConfidential m)

mutual

/-- Spec section 8, invariant 1 (isolation): every `Leaf` entry anywhere in
the tree owns a page in confidential memory, and every backing region of a
table in the tree lies in confidential memory; `Shared` entries are the only
places a non-confidential address may appear. -/
def PageTable.confidential (m : MemoryLayout) : PageTable → Bool
  | .mk _ mem entries =>
    mem.pages.all (Page.isConfidential m) && PageTableEntry.listConfidential m entries

/-- All entries of a list satisfy `PageTableEntry.entryConfidential`. -/
def PageTableEntry.listConfidential (m : MemoryLayout) : List PageTableEntry → Bool
  | [] => true
  | e :: rest => PageTableEntry.entryConfidential m e && PageTableEntry.listConfidential m rest

/-- A `Leaf` owns a confidential page; a `Pointer` child is recursively
confidential; `NotValid` and `Shared` entries impose nothing. -/
def PageTableEntry.entryConfidential (m : MemoryLayout) : PageTableEntry → Bool
  | .Leaf page _ _ => page.isConfidential m
  | .Pointer child _ => PageTable.confidential m child
  | .NotValid => true
  | .Shared _ _ _ => true

end

/-- For every index of the logical entry sequence, the raw word stored at
that index is the encoding of the logical entry (the raw sequence may extend
beyond the logical one, as it does for `PageTable::empty`). -/
def wordsMatch : List Nat → List PageTableEntry → Bool
  | _, [] => true
  | [], _ :: _ => false
  | w :: ws, e :: es => (w == e.encode) && wordsMatch ws es

mutual

/-- Spec section 8, invariant 3 (raw/logical agreement), for every table of
the tree: `encode(logical[i]) == raw[i]` at every index of the logical entry
sequence. -/
def PageTable.rawAgrees : PageTable → Bool
  | .mk _ mem entries => wordsMatch mem.rawWords entries && PageTableEntry.listRawAgrees entries

/-- All entries of a list satisfy `PageTableEntry.entryRawAgrees`. -/
def PageTableEntry.listRawAgrees : List PageTableEntry → Bool
  | [] => true
  | e :: rest => PageTableEntry.entryRawAgrees e && PageTableEntry.listRawAgrees rest

/-- The child table of a `Pointer` entry recursively satisfies
`PageTable.rawAgrees`. -/
def PageTableEntry.entryRawAgrees : PageTableEntry → Bool
  | .Pointer child _ => PageTable.rawAgrees child
  | _ => true

end

/-- A sequence of `RootPageTable::map_shared_page` calls; a failed call
leaves the tree and the tracker as they were. -/
def applySharedPageCalls : List SharedPage → RootPageTable × MemoryTracker →
    RootPageTable × MemoryTracker
  | [], st => st
  | shared_page :: rest, (rt, tr) =>
    match rt.map_shared_page shared_page tr with
    | .ok st1 => applySharedPageCalls rest st1
    | .error _ => applySharedPageCalls rest (rt, tr)

/-- `GpRegister` from `hart.rs` (not in the sources): one of the 32 integer
registers, by index. -/
abbrev GpRegister : Type := Fin 32

/-- Register `a0` is `x10`. -/
def GpRegister.a0 : GpRegister := ⟨10, by decide⟩

/-- Register `a1` is `x11`. -/
def GpRegister.a1 : GpRegister := ⟨11, by decide⟩

/-- `GpRegister::from_index` from `hart.rs` (not in the sources): register
for an index below 32, `None` otherwise. -/
def GpRegister.from_index (index : Nat) : Option GpRegister :=
  if h : index < 32 then some ⟨index, h⟩ else none

/-- Modelled from the spec: `HartState` from `hart.rs` (not in the sources):
the flat per-vCPU record of general-purpose registers, floating-point
registers and the privileged CSRs needed to resume a guest.  The byte layout
(registers first, for the assembly stubs) is outside the model. -/
structure HartState : Type where
  id : Nat
  gprs : Fin 32 → Nat
  fprs : Fin 32 → Nat
  mepc : Nat
  mstatus : Nat
  mcause : Nat
  mtval : Nat
  mtval2 : Nat
  mtinst : Nat
  hgatp : Nat
  sscratch : Nat
  mideleg : Nat
  hideleg : Nat
  medeleg : Nat
  hedeleg : Nat

/-- Modelled from the spec: `HartState::empty(id)` is the all-zero state with
the given hart id. -/
def HartState.empty (id : Nat) : HartState :=
  ⟨id, fun _ => 0, fun _ => 0, 0, 0, 0, 0, 0, 0, 0, 0, 0, 0, 0, 0⟩

/-- Modelled from the spec: `HartState::from_existing(id, from)` copies the
CSRs from the snapshot (the register files start out zeroed; `from_vm_hart`
copies them separately) and takes the given hart id. -/
def HartState.from_existing (id : Nat) (from_state : HartState) : HartState :=
  { from_state with id := id, gprs := fun _ => 0, fprs := fun _ => 0 }

/-- `HartState::gpr` from `hart.rs` (not in the sources). -/
def HartState.gpr (s : HartState) (r : GpRegister) : Nat :=
  s.gprs r

/-- `HartState::set_gpr` from `hart.rs` (not in the sources). -/
def HartState.set_gpr (s : HartState) (r : GpRegister) (v : Nat) : HartState :=
  { s with gprs := Function.update s.gprs r v }

/-- Modelled from the spec: the `PendingRequest` tagged union from the
transformations module (not in the sources); at most one is outstanding per
hart.  The payloads play no role in the claims. -/
inductive PendingRequest : Type where
  | SbiRequest : PendingRequest
  | GuestLoadPageFault : PendingRequest
  | GuestStorePageFault : PendingRequest
  | SharePage : PendingRequest
deriving DecidableEq

/-- Modelled from the spec: `SbiResult { a0, a1, pc_offset }` from the
transformations module (not in the sources). -/
structure SbiResult : Type where
  a0 : Nat
  a1 : Nat
  pc_offset : Nat
deriving DecidableEq

/-- Modelled from the spec: `GuestLoadPageFaultResult { value, result_gpr,
instruction_length }` from the transformations module (not in the sources). -/
structure GuestLoadPageFaultResult : Type where
  value : Nat
  result_gpr : GpRegister
  instruction_length : Nat
deriving DecidableEq

/-- Modelled from the spec: `GuestStorePageFaultResult
{ instruction_length }` from the transformations module (not in the
sources). -/
structure GuestStorePageFaultResult : Type where
  instruction_length : Nat
deriving DecidableEq

/-- Modelled from the spec: the `ExposeToConfidentialVm` transformation
tagged union from the transformations module (not in the sources). -/
inductive ExposeToConfidentialVm : Type where
  | SbiResult : SbiResult → ExposeToConfidentialVm
  | GuestLoadPageFaultResult : GuestLoadPageFaultResult → ExposeToConfidentialVm
  | GuestStorePageFaultResult : GuestStorePageFaultResult → ExposeToConfidentialVm
  | Resume : ExposeToConfidentialVm

/-- `ConfidentialHart` from `confidential_hart.rs`: the hart state, the
optional pending request and the dummy flag. -/
structure ConfidentialHart : Type where
  confidential_hart_state : HartState
  pending_request : Option PendingRequest
  dummy : Bool

/-- `ConfidentialHart::dummy` from `confidential_hart.rs`. -/
def ConfidentialHart.dummy_hart (id : Nat) : ConfidentialHart :=
  ⟨HartState.empty id, none, true⟩

/-- `ConfidentialHart::from_vm_hart_reset` from `confidential_hart.rs`:
copies the CSRs from the snapshot, then forces the delegation masks
`mideleg = hideleg = 0b010001000100` and `medeleg = hedeleg =
0b1011001111111111`. -/
def ConfidentialHart.from_vm_hart_reset (id : Nat) (from_state : HartState) : ConfidentialHart :=
  let s0 := HartState.from_existing id from_state
  let s1 := { s0 with mideleg := 0b010001000100 }
  let s2 := { s1 with hideleg := s1.mideleg }
  let s3 := { s2 with medeleg := 0b1011001111111111 }
  let s4 := { s3 with hedeleg := s3.medeleg }
  ⟨s4, none, false⟩

/-- `ConfidentialHart::from_vm_hart` from `confidential_hart.rs`: as the
reset constructor, then copies all GPRs and FPRs from the snapshot and
installs a pending `SbiRequest`. -/
def ConfidentialHart.from_vm_hart (id : Nat) (from_state : HartState) : ConfidentialHart :=
  let h := ConfidentialHart.from_vm_hart_reset id from_state
  let h := { h with confidential_hart_state :=
    { h.confidential_hart_state with gprs := from_state.gprs, fprs := from_state.fprs } }
  { h with pending_request := some PendingRequest.SbiRequest }

/-- `ConfidentialHart::take_request` from `confidential_hart.rs`: consumes
the pending request.  The mutated hart is returned alongside the taken
value. -/
def ConfidentialHart.take_request (h : ConfidentialHart) :
    Option PendingRequest × ConfidentialHart :=
  (h.pending_request, { h with pending_request := none })

/-- `ConfidentialHart::set_pending_request` from `confidential_hart.rs`:
`assure!(self.pending_request.is_none(), Error::PendingRequest())` then
store.  The pair returns the `Result<(), Error>` together with the hart
after the call (unchanged on the error path). -/
def ConfidentialHart.set_pending_request (h : ConfidentialHart) (request : PendingRequest) :
    Except Error Unit × ConfidentialHart :=
  if h.pending_request.isNone then
    (.ok (), { h with pending_request := some request })
  else
    (.error .PendingRequest, h)

/-- `ConfidentialHart::set_hgatp` from `confidential_hart.rs`. -/
def ConfidentialHart.set_hgatp (h : ConfidentialHart) (hgatp : Nat) : ConfidentialHart :=
  { h with confidential_hart_state := { h.confidential_hart_state with hgatp := hgatp } }

/-- `ConfidentialHart::apply_sbi_result` from `confidential_hart.rs`. -/
def ConfidentialHart.apply_sbi_result (h : ConfidentialHart) (result : SbiResult) :
    ConfidentialHart :=
  let s := h.confidential_hart_state
  let s := s.set_gpr GpRegister.a0 result.a0
  let s := s.set_gpr GpRegister.a1 result.a1
  let s := { s with mepc := s.mepc + result.pc_offset }
  { h with confidential_hart_state := s }

/-- `ConfidentialHart::apply_guest_load_page_fault_result` from
`confidential_hart.rs`. -/
def ConfidentialHart.apply_guest_load_page_fault_result (h : ConfidentialHart)
    (result : GuestLoadPageFaultResult) : ConfidentialHart :=
  let s := h.confidential_hart_state
  let s := s.set_gpr result.result_gpr result.value
  let s := { s with mepc := s.mepc + result.instruction_length }
  { h with confidential_hart_state := s }

/-- `ConfidentialHart::apply_guest_store_page_fault_result` from
`confidential_hart.rs`. -/
def ConfidentialHart.apply_guest_store_page_fault_result (h : ConfidentialHart)
    (result : GuestStorePageFaultResult) : ConfidentialHart :=
  let s := h.confidential_hart_state
  let s := { s with mepc := s.mepc + result.instruction_length }
  { h with confidential_hart_state := s }

/-- `ConfidentialHart::apply` from `confidential_hart.rs`.  The source
additionally returns the raw address of the embedded hart state for the
assembly stubs; addresses of Lean values are outside the model, so only the
mutated hart is returned. -/
def ConfidentialHart.apply (h : ConfidentialHart) (transformation : ExposeToConfidentialVm) :
    ConfidentialHart :=
  match transformation with
  | .SbiResult v => h.apply_sbi_result v
  | .GuestLoadPageFaultResult v => h.apply_guest_load_page_fault_result v
  | .GuestStorePageFaultResult v => h.apply_guest_store_page_fault_result v
  | .Resume => h

/-- Modelled from the `riscv_decode` crate (an external dependency of
`read_result_gpr`): when the 32-bit truncation of the word decodes to one of
the supported uncompressed loads (`Lb`/`Lbu`/`Lh`/`Lhu`/`Lw`/`Lwu`/`Ld`,
opcode `0000011`, funct3 0..6) the selected register is `rd` (bits 7..11);
when it decodes to one of the supported stores (`Sb`/`Sh`/`Sw`/`Sd`, opcode
`0100011`, funct3 0..3) the selected register is `rs2` (bits 20..24);
every other decode outcome falls through to the compressed-instruction
section of `read_result_gpr`. -/
def decode_load_store (mtinst : Nat) : Option Nat :=
  let w := mtinst % 2 ^ 32
  let opcode := w &&& 0x7f
  let funct3 := (w >>> 12) &&& 0x7
  if opcode = 0x03 ∧ funct3 ≠ 0x7 then some ((w >>> 7) &&& 0x1f)
  else if opcode = 0x23 ∧ funct3 ≤ 0x3 then some ((w >>> 20) &&& 0x1f)
  else none

/-- The `shift_right` closure of `read_result_gpr`: a right shift that turns
into a left shift for negative amounts. -/
def shift_right (x : Nat) (y : Int) : Nat :=
  if y < 0 then x <<< (-y).toNat else x >>> y.toNat

/-- The `rv_x` closure of `read_result_gpr`: extract `n` bits starting at
bit `s`. -/
def rv_x (x s n : Nat) : Nat :=
  (x >>> s) &&& ((1 <<< n) - 1)

/-- `read_result_gpr` from `confidential_hart.rs` (lines 190-271): decode
the destination (loads) or source (stores) register of a trapping
load/store, covering the standard widths through `riscv_decode` and the
compressed forms C.LW, C.LD, C.SW, C.SD, C.LWSP, C.SWSP, C.LDSP, C.SDSP by
explicit mask matching; unknown encodings fail with
`InvalidRiscvInstruction` carrying the raw word. -/
def read_result_gpr (mtinst : Nat) : Except Error GpRegister :=
  let log_regbytes : Nat := 3
  let reg_mask : Nat := (1 <<< (5 + log_regbytes)) - (1 <<< log_regbytes)
  let register_index : Except Error Nat :=
    match decode_load_store mtinst with
    | some index => .ok index
    | none =>
      if mtinst &&& 0xe003 = 0x4000 then
        .ok (8 + rv_x mtinst 2 3)
      else if mtinst &&& 0xe003 = 0x6000 then
        .ok (8 + rv_x mtinst 2 3)
      else if mtinst &&& 0xe003 = 0xc000 then
        let tmp_inst := 8 + rv_x mtinst 2 3
        .ok ((shift_right tmp_inst (0 - (log_regbytes : Int)) &&& reg_mask) / 8)
      else if mtinst &&& 0xe003 = 0xe000 then
        let tmp_inst := 8 + rv_x mtinst 2 3
        .ok ((shift_right tmp_inst (0 - (log_regbytes : Int)) &&& reg_mask) / 8)
      else if mtinst &&& 0xe003 = 0x4002 then
        .ok 0
      else if mtinst &&& 0xe003 = 0xc002 then
        .ok ((shift_right mtinst ((2 : Int) - (log_regbytes : Int)) &&& reg_mask) / 8)
      else if mtinst &&& 0xe003 = 0x6002 then
        .ok 0
      else if mtinst &&& 0xe003 = 0xe002 then
        .ok ((shift_right mtinst ((2 : Int) - (log_regbytes : Int)) &&& reg_mask) / 8)
      else
        .error (.InvalidRiscvInstruction mtinst)
  match register_index with
  | .error e => .error e
  | .ok index =>
    match GpRegister.from_index index with
    | some r => .ok r
    | none => .error (.InvalidRiscvInstruction mtinst)

/-- The word matches one of the supported encodings of `read_result_gpr`:
one of the eleven uncompressed loads/stores, or one of the eight compressed
forms. -/
def is_supported_load_store (mtinst : Nat) : Bool :=
  (decode_load_store mtinst).isSome ||
  (mtinst &&& 0xe003 = 0x4000) || (mtinst &&& 0xe003 = 0x6000) ||
  (mtinst &&& 0xe003 = 0xc000) || (mtinst &&& 0xe003 = 0xe000) ||
  (mtinst &&& 0xe003 = 0x4002) || (mtinst &&& 0xe003 = 0xc002) ||
  (mtinst &&& 0xe003 = 0x6002) || (mtinst &&& 0xe003 = 0xe002)

/-! Concrete instances used by the witnesses. -/

/-- A concrete memory layout: confidential memory `[0x1000000, 0x2000000)`,
non-confidential memory `[0x8000000, 0x9000000)`. -/
def layout0 : MemoryLayout := ⟨0x1000000, 0x2000000, 0x8000000, 0x9000000⟩

/-- A tracker whose free pool holds eight confidential 4 KiB pages. -/
def tracker0 : MemoryTracker :=
  ⟨(List.range 8).map (fun i => ⟨0x1000000 + 4096 * i, .Size4KiB⟩)⟩

/-- Non-confidential memory holding an all-zero hypervisor page table: every
copied entry is `NotValid`. -/
def ncm0 : Nat → Nat := fun _ => 0

/-- Non-confidential memory holding the raw word 1 everywhere: every entry
is valid with R/W/X clear, that is, a pointer entry. -/
def ncm1 : Nat → Nat := fun _ => 1

/-- A shared page: hypervisor page `0x8100000`, guest virtual address 0. -/
def sharedPage0 : SharedPage := ⟨0x8100000, 0⟩

/-- The `Shared` entry that `map_shared_page` installs for a shared page. -/
def sharedEntryOf (sp : SharedPage) : PageTableEntry :=
  .Shared sp.hypervisor_address PageTableConfiguration.shared_page_configuration
    PageTablePermission.shared_page_permission

/-- A root page table at level 5 whose entries are all `NotValid`, with a
synchronized all-zero backing region. -/
def emptyRoot : PageTable :=
  .mk .Level5 ⟨[⟨0x1000000, .Size4KiB⟩], List.replicate 8 0⟩
    (List.replicate 8 .NotValid)

/-- A level-1 table whose entry 0 is a `Leaf` owning the confidential page
`0x1003000`. -/
def leafTable : PageTable :=
  .mk .Level1 ⟨[⟨0x1002000, .Size4KiB⟩], [PageTableEntry.encode
      (.Leaf ⟨0x1003000, .Size4KiB⟩ PageTableConfiguration.empty ⟨true, true, true⟩)]⟩
    [.Leaf ⟨0x1003000, .Size4KiB⟩ PageTableConfiguration.empty ⟨true, true, true⟩]

/-- A level-1 table whose entry 0 is a `Shared` entry for the hypervisor
page `0x8200000`. -/
def sharedTable : PageTable :=
  .mk .Level1 ⟨[⟨0x1002000, .Size4KiB⟩], [PageTableEntry.encode (sharedEntryOf ⟨0x8200000, 0⟩)]⟩
    [sharedEntryOf ⟨0x8200000, 0⟩]

/-! Theorems. -/

/-- C10: for every virtual address and every level of the Sv57x4 paging
system, the extracted virtual page number is strictly below the number of
entries of a table at that level: at the root (level 5) the index is at most
`0x3ff` against 2048 entries, at the inner levels it is at most 511 against
512 entries; so a page-table walk's index always fits a fully populated
table. -/
theorem vpn_always_within_table_bounds (va : Nat) (level : PageTableLevel) :
    (PagingSystem.vpn .Sv57x4 va level < PagingSystem.entries .Sv57x4 level) ∧
    (level = PageTableLevel.Level5 →
      PagingSystem.vpn .Sv57x4 va level ≤ 0x3ff ∧
      PagingSystem.entries .Sv57x4 level = 2048) ∧
    (level ≠ PageTableLevel.Level5 →
      PagingSystem.vpn .Sv57x4 va level ≤ 511 ∧
      PagingSystem.entries .Sv57x4 level = 512) := by
  have key : ∀ x m n : Nat, m < n → x &&& m < n :=
    fun _ _ _ h => lt_of_le_of_lt Nat.and_le_right h
  have keyle : ∀ x m : Nat, x &&& m ≤ m := fun _ _ => Nat.and_le_right
  cases level <;>
    refine ⟨?_, fun h => ⟨?_, ?_⟩, fun h => ⟨?_, ?_⟩⟩ <;>
    first
      | exact absurd rfl h
      | exact absurd h (by decide)
      | exact key _ _ _ (by decide)
      | exact keyle _ _
      | decide

/-- C10 witness: concrete instance of the bound. -/
theorem vpn_always_within_table_bounds_witness :
    PagingSystem.vpn .Sv57x4 0xFFFFFFFFFFFFFFFF .Level5 ≤ 0x3ff ∧
    PagingSystem.entries .Sv57x4 .Level5 = 2048 ∧
    PagingSystem.vpn .Sv57x4 0xFFFFFFFFFFFFFFFF .Level2 ≤ 511 := by
  refine ⟨((vpn_always_within_table_bounds 0xFFFFFFFFFFFFFFFF .Level5).2.1 rfl).1,
    ((vpn_always_within_table_bounds 0xFFFFFFFFFFFFFFFF .Level5).2.1 rfl).2,
    ((vpn_always_within_table_bounds 0xFFFFFFFFFFFFFFFF .Level2).2.2 (by decide)).1⟩

/-- C4: for every hart id and source snapshot, the hart built by
`from_vm_hart_reset` (and hence by `from_vm_hart`) has `mideleg` and
`hideleg` both `0b0100_0100_0100` and `medeleg` and `hedeleg` both `0xB3FF`,
whatever the snapshot's delegation values were. -/
theorem delegation_masks_forced (id : Nat) (from_state : HartState) :
    (ConfidentialHart.from_vm_hart_reset id from_state).confidential_hart_state.mideleg
        = 0b010001000100 ∧
    (ConfidentialHart.from_vm_hart_reset id from_state).confidential_hart_state.hideleg
        = 0b010001000100 ∧
    (ConfidentialHart.from_vm_hart_reset id from_state).confidential_hart_state.medeleg
        = 0xB3FF ∧
    (ConfidentialHart.from_vm_hart_reset id from_state).confidential_hart_state.hedeleg
        = 0xB3FF ∧
    (ConfidentialHart.from_vm_hart id from_state).confidential_hart_state.mideleg
        = 0b010001000100 ∧
    (ConfidentialHart.from_vm_hart id from_state).confidential_hart_state.hideleg
        = 0b010001000100 ∧
    (ConfidentialHart.from_vm_hart id from_state).confidential_hart_state.medeleg
        = 0xB3FF ∧
    (ConfidentialHart.from_vm_hart id from_state).confidential_hart_state.hedeleg
        = 0xB3FF :=
  ⟨rfl, rfl, rfl, rfl, rfl, rfl, rfl, rfl⟩

/-- C5: `set_pending_request` on a hart whose slot is occupied returns the
`PendingRequest` error and leaves the hart entirely unchanged (the original
request stays in the slot); on an empty slot it succeeds and stores the
request, so at most one pending request is ever outstanding. -/
theorem pending_request_at_most_one (h : ConfidentialHart) (r0 r : PendingRequest) :
    (h.pending_request = some r0 →
      h.set_pending_request r = (.error .PendingRequest, h) ∧
      (h.set_pending_request r).2.pending_request = some r0) ∧
    (h.pending_request = none →
      h.set_pending_request r = (.ok (), { h with pending_request := some r })) := by
  constructor
  · intro hocc
    simp [ConfidentialHart.set_pending_request, hocc]
  · intro hemp
    simp [ConfidentialHart.set_pending_request, hemp]

/-- C5 witness: a freshly promoted hart carries a pending `SbiRequest`, so a
second request is refused and the slot keeps the original; a dummy hart's
slot is empty, so a request is stored. -/
theorem pending_request_at_most_one_witness :
    ((ConfidentialHart.from_vm_hart 0 (HartState.empty 0)).set_pending_request .SharePage
      = (.error .PendingRequest, ConfidentialHart.from_vm_hart 0 (HartState.empty 0))) ∧
    ((ConfidentialHart.from_vm_hart 0 (HartState.empty 0)).set_pending_request
        .SharePage).2.pending_request = some .SbiRequest ∧
    ((ConfidentialHart.dummy_hart 0).set_pending_request .SharePage).1 = .ok () := by
  refine ⟨((pending_request_at_most_one (ConfidentialHart.from_vm_hart 0 (HartState.empty 0))
      .SbiRequest .SharePage).1 rfl).1,
    ((pending_request_at_most_one (ConfidentialHart.from_vm_hart 0 (HartState.empty 0))
      .SbiRequest .SharePage).1 rfl).2, ?_⟩
  rw [(pending_request_at_most_one (ConfidentialHart.dummy_hart 0) .SbiRequest .SharePage).2 rfl]

/-- C6: applying a `GuestLoadPageFaultResult` advances `mepc` by the
instruction length and writes the value into the destination GPR; applying a
`GuestStorePageFaultResult` advances `mepc` by the instruction length and
writes no GPR. -/
theorem apply_advances_mepc (h : ConfidentialHart) (lv : GuestLoadPageFaultResult)
    (sv : GuestStorePageFaultResult) :
    ((h.apply (.GuestLoadPageFaultResult lv)).confidential_hart_state.mepc
        = h.confidential_hart_state.mepc + lv.instruction_length) ∧
    ((h.apply (.GuestLoadPageFaultResult lv)).confidential_hart_state.gpr lv.result_gpr
        = lv.value) ∧
    ((h.apply (.GuestStorePageFaultResult sv)).confidential_hart_state.mepc
        = h.confidential_hart_state.mepc + sv.instruction_length) ∧
    (∀ r, (h.apply (.GuestStorePageFaultResult sv)).confidential_hart_state.gpr r
        = h.confidential_hart_state.gpr r) := by
  refine ⟨rfl, ?_, rfl, fun r => rfl⟩
  simp [ConfidentialHart.apply, ConfidentialHart.apply_guest_load_page_fault_result,
    HartState.gpr, HartState.set_gpr, Function.update]

/-- C9: a word that matches none of the supported uncompressed loads/stores
and none of the supported compressed forms makes `read_result_gpr` return
the `InvalidRiscvInstruction` error carrying exactly that word; no register
is ever returned for an unknown encoding. -/
theorem unknown_encoding_rejected (w : Nat) (h : is_supported_load_store w = false) :
    read_result_gpr w = .error (.InvalidRiscvInstruction w) := by
  simp only [is_supported_load_store, Bool.or_eq_false_iff] at h
  obtain ⟨⟨⟨⟨⟨⟨⟨⟨h0, h1⟩, h2⟩, h3⟩, h4⟩, h5⟩, h6⟩, h7⟩, h8⟩ := h
  have hnone : decode_load_store w = none := by
    cases hd : decode_load_store w with
    | none => rfl
    | some v => rw [hd] at h0; simp at h0
  simp [read_result_gpr, hnone, of_decide_eq_false h1, of_decide_eq_false h2,
    of_decide_eq_false h3, of_decide_eq_false h4, of_decide_eq_false h5,
    of_decide_eq_false h6, of_decide_eq_false h7, of_decide_eq_false h8]

/-- C9 witness: the word 1 is no supported encoding and is rejected carrying
the word itself. -/
theorem unknown_encoding_rejected_witness :
    is_supported_load_store 1 = false ∧
    read_result_gpr 1 = .error (.InvalidRiscvInstruction 1) :=
  ⟨by decide, unknown_encoding_rejected 1 (by decide)⟩

/-- The `map_shared_page` recursion applied to a table whose logical entry
sequence is empty fails with `PageTableConfiguration` at its entry lookup,
whatever the fuel. -/
theorem map_aux_empty_entries (ps : PagingSystem) (sp : SharedPage) (fuel : Nat)
    (l : PageTableLevel) (m : PageTableMemory) (tr : MemoryTracker) :
    PageTable.map_aux ps sp fuel (.mk l m []) tr = .error .PageTableConfiguration := by
  cases fuel with
  | zero => rfl
  | succ k => simp [PageTable.map_aux]

/-- `PageTable::empty` always yields a table with the given level and an
empty logical entry sequence (the source's `Vec::with_capacity` has length
zero). -/
theorem empty_entries_nil (ps : PagingSystem) (l : PageTableLevel) (t : MemoryTracker)
    (pt : PageTable) (t1 : MemoryTracker) (h : PageTable.empty ps l t = .ok (pt, t1)) :
    ∃ m, pt = .mk l m [] := by
  unfold PageTable.empty at h
  cases hm : PageTableMemory.empty ps l t with
  | error e => rw [hm] at h; exact absurd h (by simp)
  | ok pr =>
    obtain ⟨m, t2⟩ := pr
    rw [hm] at h
    simp only [Except.ok.injEq, Prod.mk.injEq] at h
    exact ⟨m, h.1.symm⟩

/-- All-predicate transported along a sublist. -/
theorem list_all_of_subset {α : Type} (p : α → Bool) {l1 l2 : List α} (hsub : l1 ⊆ l2)
    (h : l2.all p = true) : l1.all p = true := by
  rw [List.all_eq_true] at h ⊢
  exact fun x hx => h x (hsub hx)

/-- `getD` through `set` at a different index. -/
theorem getD_set_ne {α : Type} (l : List α) (i j : Nat) (a d : α) (hne : i ≠ j) :
    (l.set i a).getD j d = l.getD j d := by
  simp [List.getD_eq_getD_get?, List.get?_eq_getElem?, List.getElem?_set_ne hne]

/-- A successful `acquire_continous_pages` takes its pages from the pool:
when the pool is all-confidential, the acquired pages are confidential, the
remaining pool is all-confidential, and exactly `n` pages are returned. -/
theorem acquire_confidential (m : MemoryLayout) (t : MemoryTracker) (n : Nat) (s : PageSize)
    (pages : List Page) (t1 : MemoryTracker)
    (hall : t.allConfidential m = true)
    (h : t.acquire_continous_pages n s = .ok (pages, t1)) :
    pages.all (Page.isConfidential m) = true ∧ t1.allConfidential m = true ∧
      pages.length = n := by
  unfold MemoryTracker.acquire_continous_pages at h
  split at h
  · next hle =>
    simp only [Except.ok.injEq, Prod.mk.injEq] at h
    obtain ⟨hp, ht⟩ := h
    subst hp
    subst ht
    refine ⟨?_, ?_, ?_⟩
    · have hsub : (t.pool.filter (fun p => decide (p.size = s))).take n ⊆ t.pool :=
        fun x hx => (List.mem_filter.mp (List.take_subset _ _ hx)).1
      exact list_all_of_subset _ hsub hall
    · have hsub : (t.pool.filter (fun p => decide (¬ p.size = s))
          ++ (t.pool.filter (fun p => decide (p.size = s))).drop n) ⊆ t.pool := by
        intro x hx
        rcases List.mem_append.mp hx with hx1 | hx2
        · exact (List.mem_filter.mp hx1).1
        · exact (List.mem_filter.mp (List.drop_subset _ _ hx2)).1
      exact list_all_of_subset _ hsub hall
    · simp [List.length_take, Nat.min_eq_left hle]
  · exact absurd h (by simp)

/-- `acquire_continous_pages` succeeds whenever the pool holds enough pages
of the requested size class. -/
theorem acquire_ok_of_le (t : MemoryTracker) (n : Nat) (s : PageSize)
    (hle : n ≤ (t.pool.filter (fun p => decide (p.size = s))).length) :
    ∃ pages t1, t.acquire_continous_pages n s = .ok (pages, t1) := by
  refine ⟨(t.pool.filter (fun p => decide (p.size = s))).take n,
    ⟨t.pool.filter (fun p => decide (¬ p.size = s))
      ++ (t.pool.filter (fun p => decide (p.size = s))).drop n⟩, ?_⟩
  unfold MemoryTracker.acquire_continous_pages
  rw [if_pos hle]

/-- Shape of a successful `PageTableMemory` copy: the raw words are the
snapshot of non-confidential memory and the backing pages come from the
tracker. -/
theorem memcopy_ok_shape (ncm : Nat → Nat) (address : Nat) (ps : PagingSystem)
    (level : PageTableLevel) (t : MemoryTracker) (mem0 : PageTableMemory)
    (t1 : MemoryTracker)
    (h : PageTableMemory.copy_from_non_confidential_memory ncm address ps level t
      = .ok (mem0, t1)) :
    mem0.rawWords = (List.range (ps.entries level)).map
        (fun i => ncm (address + ps.entry_size * i)) ∧
    t.acquire_continous_pages (ps.configuration_pages level) .Size4KiB
      = .ok (mem0.pages, t1) := by
  unfold PageTableMemory.copy_from_non_confidential_memory at h
  cases hacq : t.acquire_continous_pages (ps.configuration_pages level) .Size4KiB with
  | error e => rw [hacq] at h; exact absurd h (by simp)
  | ok pr =>
    obtain ⟨pages, t2⟩ := pr
    rw [hacq] at h
    simp only [Except.ok.injEq, Prod.mk.injEq] at h
    obtain ⟨hm, ht⟩ := h
    subst hm
    subst ht
    exact ⟨rfl, rfl⟩

/-- A successful `PageTableMemory` copy from an all-confidential pool yields
confidential backing pages and keeps the pool all-confidential. -/
theorem memcopy_confidential (m : MemoryLayout) (ncm : Nat → Nat) (address : Nat)
    (ps : PagingSystem) (level : PageTableLevel) (t : MemoryTracker)
    (mem0 : PageTableMemory) (t1 : MemoryTracker)
    (hall : t.allConfidential m = true)
    (h : PageTableMemory.copy_from_non_confidential_memory ncm address ps level t
      = .ok (mem0, t1)) :
    mem0.pages.all (Page.isConfidential m) = true ∧ t1.allConfidential m = true := by
  obtain ⟨-, hacq⟩ := memcopy_ok_shape ncm address ps level t mem0 t1 h
  obtain ⟨h1, h2, -⟩ := acquire_confidential m t _ _ _ _ hall hacq
  exact ⟨h1, h2⟩

/-- `PageTableMemory.copy_from_non_confidential_memory` succeeds whenever
the pool holds enough 4 KiB pages for the backing region. -/
theorem memcopy_ok_of_le (ncm : Nat → Nat) (address : Nat) (ps : PagingSystem)
    (level : PageTableLevel) (t : MemoryTracker)
    (hle : ps.configuration_pages level
      ≤ (t.pool.filter (fun p => decide (p.size = PageSize.Size4KiB))).length) :
    ∃ mem0 t1, PageTableMemory.copy_from_non_confidential_memory ncm address ps level t
      = .ok (mem0, t1) := by
  obtain ⟨pages, t1, hacq⟩ := acquire_ok_of_le t _ _ hle
  refine ⟨⟨pages, (List.range (ps.entries level)).map
      (fun i => ncm (address + ps.entry_size * i))⟩, t1, ?_⟩
  unfold PageTableMemory.copy_from_non_confidential_memory
  rw [hacq]

/-- A successful `PageTableMemory.empty` from an all-confidential pool
yields confidential backing pages and keeps the pool all-confidential. -/
theorem memempty_confidential (m : MemoryLayout) (ps : PagingSystem)
    (level : PageTableLevel) (t : MemoryTracker) (mem0 : PageTableMemory)
    (t1 : MemoryTracker)
    (hall : t.allConfidential m = true)
    (h : PageTableMemory.empty ps level t = .ok (mem0, t1)) :
    mem0.pages.all (Page.isConfidential m) = true ∧ t1.allConfidential m = true := by
  unfold PageTableMemory.empty at h
  cases hacq : t.acquire_continous_pages (ps.configuration_pages level) .Size4KiB with
  | error e => rw [hacq] at h; exact absurd h (by simp)
  | ok pr =>
    obtain ⟨pages, t2⟩ := pr
    rw [hacq] at h
    simp only [Except.ok.injEq, Prod.mk.injEq] at h
    obtain ⟨hm, ht⟩ := h
    subst hm
    subst ht
    obtain ⟨h1, h2, -⟩ := acquire_confidential m t _ _ _ _ hall hacq
    exact ⟨h1, h2⟩

/-- `wordsMatch` against the empty logical sequence always holds. -/
theorem wordsMatch_nil (ws : List Nat) : wordsMatch ws [] = true := by
  cases ws <;> rfl

/-- `wordsMatch` follows from pointwise raw-word agreement on the logical
indices. -/
theorem wordsMatch_of_get? : ∀ (ws : List Nat) (es : List PageTableEntry),
    (∀ j, j < es.length →
      ws.get? j = some (((es.get? j).getD .NotValid).encode)) →
    wordsMatch ws es = true := by
  intro ws es
  induction es generalizing ws with
  | nil => intro _; cases ws <;> rfl
  | cons e rest ih =>
    intro h
    cases ws with
    | nil => exact absurd (h 0 (by simp)) (by simp)
    | cons w ws1 =>
      have h0 := h 0 (by simp)
      simp only [List.get?, Option.getD_some, Option.some.injEq] at h0
      show ((w == PageTableEntry.encode e) && wordsMatch ws1 rest) = true
      rw [Bool.and_eq_true]
      refine ⟨by simp [h0], ih ws1 ?_⟩
      intro j hj
      have := h (j + 1) (by simpa using Nat.succ_lt_succ hj)
      simpa using this

/-- Pointwise raw-word agreement follows from `wordsMatch`. -/
theorem wordsMatch_get? : ∀ (ws : List Nat) (es : List PageTableEntry),
    wordsMatch ws es = true → ∀ j, j < es.length →
    ws.get? j = some (((es.get? j).getD .NotValid).encode) := by
  intro ws es
  induction es generalizing ws with
  | nil => intro _ j hj; simp at hj
  | cons e rest ih =>
    intro h j hj
    cases ws with
    | nil => simp [wordsMatch] at h
    | cons w ws1 =>
      rw [show wordsMatch (w :: ws1) (e :: rest)
          = ((w == PageTableEntry.encode e) && wordsMatch ws1 rest) from rfl,
        Bool.and_eq_true] at h
      cases j with
      | zero => simpa using h.1
      | succ j1 =>
        have := ih ws1 h.2 j1 (by simpa using Nat.lt_of_succ_lt_succ hj)
        simpa using this

/-- `wordsMatch` is preserved by synchronized updates of the raw word and
the logical entry at the same index. -/
theorem wordsMatch_set : ∀ (ws : List Nat) (es : List PageTableEntry) (i : Nat)
    (e : PageTableEntry), wordsMatch ws es = true →
    wordsMatch (ws.set i e.encode) (es.set i e) = true := by
  intro ws es
  induction es generalizing ws with
  | nil => intro i e _; cases ws <;> simp [wordsMatch]
  | cons e0 rest ih =>
    intro i e h
    cases ws with
    | nil => simp [wordsMatch] at h
    | cons w ws1 =>
      rw [show wordsMatch (w :: ws1) (e0 :: rest)
          = ((w == PageTableEntry.encode e0) && wordsMatch ws1 rest) from rfl,
        Bool.and_eq_true] at h
      cases i with
      | zero =>
        show ((PageTableEntry.encode e == PageTableEntry.encode e)
          && wordsMatch ws1 rest) = true
        simp [h.2]
      | succ i1 =>
        show ((w == PageTableEntry.encode e0)
          && wordsMatch (ws1.set i1 e.encode) (rest.set i1 e)) = true
        rw [Bool.and_eq_true]
        exact ⟨h.1, ih ws1 i1 e h.2⟩

/-- `wordsMatch` is preserved by replacing a logical entry with one of equal
encoding (the raw words unchanged). -/
theorem wordsMatch_set_congr : ∀ (ws : List Nat) (es : List PageTableEntry) (i : Nat)
    (e e' : PageTableEntry), wordsMatch ws es = true → es.get? i = some e →
    PageTableEntry.encode e' = PageTableEntry.encode e →
    wordsMatch ws (es.set i e') = true := by
  intro ws es
  induction es generalizing ws with
  | nil => intro i e e' _ hget _; simp at hget
  | cons e0 rest ih =>
    intro i e e' h hget henc
    cases ws with
    | nil => simp [wordsMatch] at h
    | cons w ws1 =>
      rw [show wordsMatch (w :: ws1) (e0 :: rest)
          = ((w == PageTableEntry.encode e0) && wordsMatch ws1 rest) from rfl,
        Bool.and_eq_true] at h
      cases i with
      | zero =>
        simp only [List.get?, Option.some.injEq] at hget
        subst hget
        show ((w == PageTableEntry.encode e') && wordsMatch ws1 rest) = true
        rw [Bool.and_eq_true, henc]
        exact h
      | succ i1 =>
        show ((w == PageTableEntry.encode e0)
          && wordsMatch ws1 (rest.set i1 e')) = true
        rw [Bool.and_eq_true]
        exact ⟨h.1, ih ws1 i1 e e' h.2 (by simpa using hget) henc⟩

/-- An entry looked up in an all-confidential entry list is confidential. -/
theorem listConfidential_get? (m : MemoryLayout) : ∀ (es : List PageTableEntry) (i : Nat)
    (e : PageTableEntry), PageTableEntry.listConfidential m es = true →
    es.get? i = some e → PageTableEntry.entryConfidential m e = true := by
  intro es
  induction es with
  | nil => intro i e _ hget; simp at hget
  | cons e0 rest ih =>
    intro i e h hget
    rw [show PageTableEntry.listConfidential m (e0 :: rest)
        = (PageTableEntry.entryConfidential m e0 && PageTableEntry.listConfidential m rest)
        from rfl, Bool.and_eq_true] at h
    cases i with
    | zero =>
      simp only [List.get?, Option.some.injEq] at hget
      subst hget
      exact h.1
    | succ i1 => exact ih i1 e h.2 (by simpa using hget)

/-- An entry looked up in a raw-agreeing entry list raw-agrees. -/
theorem listRawAgrees_get? : ∀ (es : List PageTableEntry) (i : Nat)
    (e : PageTableEntry), PageTableEntry.listRawAgrees es = true →
    es.get? i = some e → PageTableEntry.entryRawAgrees e = true := by
  intro es
  induction es with
  | nil => intro i e _ hget; simp at hget
  | cons e0 rest ih =>
    intro i e h hget
    rw [show PageTableEntry.listRawAgrees (e0 :: rest)
        = (PageTableEntry.entryRawAgrees e0 && PageTableEntry.listRawAgrees rest)
        from rfl, Bool.and_eq_true] at h
    cases i with
    | zero =>
      simp only [List.get?, Option.some.injEq] at hget
      subst hget
      exact h.1
    | succ i1 => exact ih i1 e h.2 (by simpa using hget)

/-- Setting a confidential entry preserves an all-confidential entry list. -/
theorem listConfidential_set (m : MemoryLayout) : ∀ (es : List PageTableEntry) (i : Nat)
    (e : PageTableEntry), PageTableEntry.listConfidential m es = true →
    PageTableEntry.entryConfidential m e = true →
    PageTableEntry.listConfidential m (es.set i e) = true := by
  intro es
  induction es with
  | nil => intro i e h _; exact h
  | cons e0 rest ih =>
    intro i e h he
    rw [show PageTableEntry.listConfidential m (e0 :: rest)
        = (PageTableEntry.entryConfidential m e0 && PageTableEntry.listConfidential m rest)
        from rfl, Bool.and_eq_true] at h
    cases i with
    | zero =>
      show (PageTableEntry.entryConfidential m e
        && PageTableEntry.listConfidential m rest) = true
      rw [Bool.and_eq_true]
      exact ⟨he, h.2⟩
    | succ i1 =>
      show (PageTableEntry.entryConfidential m e0
        && PageTableEntry.listConfidential m (rest.set i1 e)) = true
      rw [Bool.and_eq_true]
      exact ⟨h.1, ih i1 e h.2 he⟩

/-- Setting a raw-agreeing entry preserves a raw-agreeing entry list. -/
theorem listRawAgrees_set : ∀ (es : List PageTableEntry) (i : Nat)
    (e : PageTableEntry), PageTableEntry.listRawAgrees es = true →
    PageTableEntry.entryRawAgrees e = true →
    PageTableEntry.listRawAgrees (es.set i e) = true := by
  intro es
  induction es with
  | nil => intro i e h _; exact h
  | cons e0 rest ih =>
    intro i e h he
    rw [show PageTableEntry.listRawAgrees (e0 :: rest)
        = (PageTableEntry.entryRawAgrees e0 && PageTableEntry.listRawAgrees rest)
        from rfl, Bool.and_eq_true] at h
    cases i with
    | zero =>
      show (PageTableEntry.entryRawAgrees e
        && PageTableEntry.listRawAgrees rest) = true
      rw [Bool.and_eq_true]
      exact ⟨he, h.2⟩
    | succ i1 =>
      show (PageTableEntry.entryRawAgrees e0
        && PageTableEntry.listRawAgrees (rest.set i1 e)) = true
      rw [Bool.and_eq_true]
      exact ⟨h.1, ih i1 e h.2 he⟩

/-- A raw word with the valid bit clear becomes a `NotValid` entry without
touching the tracker. -/
theorem copy_entry_step_invalid
    (f : Nat → PageTableLevel → MemoryTracker → Except Error (PageTable × MemoryTracker))
    (layout : MemoryLayout) (ps : PagingSystem) (level : PageTableLevel)
    (raw : Nat) (t : MemoryTracker) (h : PageTableBits.is_valid raw = false) :
    PageTable.copy_entry_step f layout ps level raw t = .ok (.NotValid, t) := by
  unfold PageTable.copy_entry_step
  rw [if_pos (by simp [h])]

/-- A valid non-leaf raw word at level 1 fails the copy step with
`PageTableCorrupted` (no lower level exists). -/
theorem copy_entry_step_level1_pointer
    (f : Nat → PageTableLevel → MemoryTracker → Except Error (PageTable × MemoryTracker))
    (layout : MemoryLayout) (ps : PagingSystem) (raw : Nat) (t : MemoryTracker)
    (hv : PageTableBits.is_valid raw = true) (hl : PageTableBits.is_leaf raw = false) :
    PageTable.copy_entry_step f layout ps .Level1 raw t = .error .PageTableCorrupted := by
  unfold PageTable.copy_entry_step
  rw [if_neg (by simp [hv]), if_neg (by simp [hl])]
  rfl

/-- A successful copy step at level 1 on a valid raw word decoded a leaf. -/
theorem copy_entry_step_level1_ok_leaf
    (f : Nat → PageTableLevel → MemoryTracker → Except Error (PageTable × MemoryTracker))
    (layout : MemoryLayout) (ps : PagingSystem) (raw : Nat) (t : MemoryTracker)
    (out : PageTableEntry × MemoryTracker)
    (h : PageTable.copy_entry_step f layout ps .Level1 raw t = .ok out)
    (hv : PageTableBits.is_valid raw = true) :
    PageTableBits.is_leaf raw = true := by
  by_cases hl : PageTableBits.is_leaf raw = true
  · exact hl
  · rw [copy_entry_step_level1_pointer f layout ps raw t hv
      (Bool.eq_false_iff.mpr hl)] at h
    exact absurd h (by simp)

/-- A successful copy step from an all-confidential pool yields a
confidential entry and keeps the pool all-confidential, provided the
recursive copy `f` does so for child tables. -/
theorem copy_entry_step_conf (m : MemoryLayout)
    (f : Nat → PageTableLevel → MemoryTracker → Except Error (PageTable × MemoryTracker))
    (layout : MemoryLayout) (ps : PagingSystem) (level : PageTableLevel)
    (Hf : ∀ a l tr c tr1, tr.allConfidential m = true → f a l tr = .ok (c, tr1) →
      PageTable.confidential m c = true ∧ tr1.allConfidential m = true)
    (raw : Nat) (t : MemoryTracker) (e : PageTableEntry) (t1 : MemoryTracker)
    (hall : t.allConfidential m = true)
    (h : PageTable.copy_entry_step f layout ps level raw t = .ok (e, t1)) :
    PageTableEntry.entryConfidential m e = true ∧ t1.allConfidential m = true := by
  unfold PageTable.copy_entry_step at h
  by_cases hv : PageTableBits.is_valid raw = true
  · rw [if_neg (by simp [hv])] at h
    by_cases hl : PageTableBits.is_leaf raw = true
    · rw [if_pos hl] at h
      cases hna : NonConfidentialMemoryAddress.new layout (PageTableAddress.decode raw) with
      | error err => rw [hna] at h; exact absurd h (by simp)
      | ok a =>
        rw [hna] at h
        simp only [] at h
        cases hacq : t.acquire_continous_pages 1 (ps.page_size level) with
        | error err => rw [hacq] at h; exact absurd h (by simp)
        | ok pr =>
          obtain ⟨acquired, t2⟩ := pr
          rw [hacq] at h
          simp only [Except.ok.injEq, Prod.mk.injEq] at h
          obtain ⟨he, ht⟩ := h
          subst he
          subst ht
          obtain ⟨hacqall, ht2, hlen⟩ := acquire_confidential m t _ _ _ _ hall hacq
          obtain ⟨p, hp⟩ := List.length_eq_one.mp hlen
          subst hp
          refine ⟨?_, ht2⟩
          show Page.isConfidential m p = true
          simpa using hacqall
    · rw [if_neg hl] at h
      cases hlow : level.lower with
      | none => rw [hlow] at h; exact absurd h (by simp)
      | some lower_level =>
        rw [hlow] at h
        simp only [] at h
        cases hna : NonConfidentialMemoryAddress.new layout (PageTableAddress.decode raw) with
        | error err => rw [hna] at h; exact absurd h (by simp)
        | ok a =>
          rw [hna] at h
          simp only [] at h
          cases hf : f a lower_level t with
          | error err => rw [hf] at h; exact absurd h (by simp)
          | ok pr =>
            obtain ⟨child, t2⟩ := pr
            rw [hf] at h
            simp only [Except.ok.injEq, Prod.mk.injEq] at h
            obtain ⟨he, ht⟩ := h
            subst he
            subst ht
            exact Hf a lower_level t child _ hall hf
  · rw [if_pos (by simp [Bool.eq_false_iff.mpr hv])] at h
    simp only [Except.ok.injEq, Prod.mk.injEq] at h
    obtain ⟨he, ht⟩ := h
    subst he
    subst ht
    exact ⟨rfl, hall⟩

/-- A successful copy step yields a raw-agreeing entry, provided the
recursive copy `f` yields raw-agreeing child tables. -/
theorem copy_entry_step_raw
    (f : Nat → PageTableLevel → MemoryTracker → Except Error (PageTable × MemoryTracker))
    (layout : MemoryLayout) (ps : PagingSystem) (level : PageTableLevel)
    (Hf : ∀ a l tr c tr1, f a l tr = .ok (c, tr1) → PageTable.rawAgrees c = true)
    (raw : Nat) (t : MemoryTracker) (e : PageTableEntry) (t1 : MemoryTracker)
    (h : PageTable.copy_entry_step f layout ps level raw t = .ok (e, t1)) :
    PageTableEntry.entryRawAgrees e = true := by
  unfold PageTable.copy_entry_step at h
  by_cases hv : PageTableBits.is_valid raw = true
  · rw [if_neg (by simp [hv])] at h
    by_cases hl : PageTableBits.is_leaf raw = true
    · rw [if_pos hl] at h
      cases hna : NonConfidentialMemoryAddress.new layout (PageTableAddress.decode raw) with
      | error err => rw [hna] at h; exact absurd h (by simp)
      | ok a =>
        rw [hna] at h
        simp only [] at h
        cases hacq : t.acquire_continous_pages 1 (ps.page_size level) with
        | error err => rw [hacq] at h; exact absurd h (by simp)
        | ok pr =>
          obtain ⟨acquired, t2⟩ := pr
          rw [hacq] at h
          simp only [Except.ok.injEq, Prod.mk.injEq] at h
          obtain ⟨he, -⟩ := h
          subst he
          rfl
    · rw [if_neg hl] at h
      cases hlow : level.lower with
      | none => rw [hlow] at h; exact absurd h (by simp)
      | some lower_level =>
        rw [hlow] at h
        simp only [] at h
        cases hna : NonConfidentialMemoryAddress.new layout (PageTableAddress.decode raw) with
        | error err => rw [hna] at h; exact absurd h (by simp)
        | ok a =>
          rw [hna] at h
          simp only [] at h
          cases hf : f a lower_level t with
          | error err => rw [hf] at h; exact absurd h (by simp)
          | ok pr =>
            obtain ⟨child, t2⟩ := pr
            rw [hf] at h
            simp only [Except.ok.injEq, Prod.mk.injEq] at h
            obtain ⟨he, -⟩ := h
            subst he
            exact Hf a lower_level t child t2 hf
  · rw [if_pos (by simp [Bool.eq_false_iff.mpr hv])] at h
    simp only [Except.ok.injEq, Prod.mk.injEq] at h
    obtain ⟨he, -⟩ := h
    subst he
    rfl

/-- The copy loop from an all-confidential pool produces an all-confidential
entry list, leaves the backing pages untouched and keeps the pool
all-confidential. -/
theorem copy_loop_confidential (m : MemoryLayout)
    (f : Nat → PageTableLevel → MemoryTracker → Except Error (PageTable × MemoryTracker))
    (layout : MemoryLayout) (ps : PagingSystem) (level : PageTableLevel)
    (Hf : ∀ a l tr c tr1, tr.allConfidential m = true → f a l tr = .ok (c, tr1) →
      PageTable.confidential m c = true ∧ tr1.allConfidential m = true) :
    ∀ (remaining index : Nat) (mem : PageTableMemory) (t : MemoryTracker)
      (es : List PageTableEntry) (mem2 : PageTableMemory) (t2 : MemoryTracker),
      t.allConfidential m = true →
      PageTable.copy_entries_loop f layout ps level index remaining mem t
        = .ok (es, mem2, t2) →
      PageTableEntry.listConfidential m es = true ∧ mem2.pages = mem.pages ∧
        t2.allConfidential m = true := by
  intro remaining
  induction remaining with
  | zero =>
    intro index mem t es mem2 t2 hall h
    simp only [PageTable.copy_entries_loop, Except.ok.injEq, Prod.mk.injEq] at h
    obtain ⟨he, hm, ht⟩ := h
    subst he
    subst hm
    subst ht
    exact ⟨rfl, rfl, hall⟩
  | succ r ih =>
    intro index mem t es mem2 t2 hall h
    simp only [PageTable.copy_entries_loop] at h
    cases hstep : PageTable.copy_entry_step f layout ps level (mem.rawWords.getD index 0) t with
    | error e => rw [hstep] at h; exact absurd h (by simp)
    | ok pr =>
      obtain ⟨e0, t1⟩ := pr
      rw [hstep] at h
      simp only [] at h
      cases hloop : PageTable.copy_entries_loop f layout ps level (index + 1) r
          (mem.set_entry index e0) t1 with
      | error e => rw [hloop] at h; exact absurd h (by simp)
      | ok pr2 =>
        obtain ⟨es1, mem3, t3⟩ := pr2
        rw [hloop] at h
        simp only [Except.ok.injEq, Prod.mk.injEq] at h
        obtain ⟨he, hm, ht⟩ := h
        subst he
        subst hm
        subst ht
        obtain ⟨hconf0, ht1⟩ :=
          copy_entry_step_conf m f layout ps level Hf _ t e0 t1 hall hstep
        obtain ⟨hes1, hpages, ht3⟩ :=
          ih (index + 1) (mem.set_entry index e0) t1 es1 mem3 t3 ht1 hloop
        refine ⟨?_, ?_, ht3⟩
        · show (PageTableEntry.entryConfidential m e0
            && PageTableEntry.listConfidential m es1) = true
          rw [Bool.and_eq_true]
          exact ⟨hconf0, hes1⟩
        · rw [hpages]
          rfl

/-- The copy loop writes the encoding of every constructed entry into the
backing region: the produced entry list has one entry per processed index,
raw words below the start index are untouched, each processed raw word holds
the encoding of its entry, and every constructed entry raw-agrees. -/
theorem copy_loop_raw
    (f : Nat → PageTableLevel → MemoryTracker → Except Error (PageTable × MemoryTracker))
    (layout : MemoryLayout) (ps : PagingSystem) (level : PageTableLevel)
    (Hf : ∀ a l tr c tr1, f a l tr = .ok (c, tr1) → PageTable.rawAgrees c = true) :
    ∀ (remaining index : Nat) (mem : PageTableMemory) (t : MemoryTracker)
      (es : List PageTableEntry) (mem2 : PageTableMemory) (t2 : MemoryTracker),
      PageTable.copy_entries_loop f layout ps level index remaining mem t
        = .ok (es, mem2, t2) →
      es.length = remaining ∧
      mem2.rawWords.length = mem.rawWords.length ∧
      (∀ k, k < index → mem2.rawWords.get? k = mem.rawWords.get? k) ∧
      (∀ j, j < remaining → index + j < mem.rawWords.length →
        mem2.rawWords.get? (index + j)
          = some (((es.get? j).getD .NotValid).encode)) ∧
      PageTableEntry.listRawAgrees es = true := by
  intro remaining
  induction remaining with
  | zero =>
    intro index mem t es mem2 t2 h
    simp only [PageTable.copy_entries_loop, Except.ok.injEq, Prod.mk.injEq] at h
    obtain ⟨he, hm, ht⟩ := h
    subst he
    subst hm
    subst ht
    exact ⟨rfl, rfl, fun k _ => rfl, fun j hj _ => absurd hj (by simp), rfl⟩
  | succ r ih =>
    intro index mem t es mem2 t2 h
    simp only [PageTable.copy_entries_loop] at h
    cases hstep : PageTable.copy_entry_step f layout ps level (mem.rawWords.getD index 0) t with
    | error e => rw [hstep] at h; exact absurd h (by simp)
    | ok pr =>
      obtain ⟨e0, t1⟩ := pr
      rw [hstep] at h
      simp only [] at h
      cases hloop : PageTable.copy_entries_loop f layout ps level (index + 1) r
          (mem.set_entry index e0) t1 with
      | error e => rw [hloop] at h; exact absurd h (by simp)
      | ok pr2 =>
        obtain ⟨es1, mem3, t3⟩ := pr2
        rw [hloop] at h
        simp only [Except.ok.injEq, Prod.mk.injEq] at h
        obtain ⟨he, hm, ht⟩ := h
        subst he
        subst hm
        subst ht
        obtain ⟨hlen1, hlen2, hbelow, hat, hagree⟩ :=
          ih (index + 1) (mem.set_entry index e0) t1 es1 mem3 t3 hloop
        have hsetlen : (mem.set_entry index e0).rawWords.length = mem.rawWords.length :=
          List.length_set mem.rawWords index (PageTableEntry.encode e0)
        refine ⟨by simp [hlen1], by rw [hlen2]; exact hsetlen, ?_, ?_, ?_⟩
        · intro k hk
          rw [hbelow k (Nat.lt_succ_of_lt hk)]
          show (mem.rawWords.set index e0.encode).get? k = mem.rawWords.get? k
          rw [List.get?_eq_getElem?, List.get?_eq_getElem?,
            List.getElem?_set_ne (Nat.ne_of_gt hk)]
        · intro j hj hbound
          cases j with
          | zero =>
            rw [Nat.add_zero] at hbound ⊢
            rw [hbelow index (Nat.lt_succ_self index)]
            show (mem.rawWords.set index e0.encode).get? index
              = some ((((e0 :: es1).get? 0).getD .NotValid).encode)
            rw [List.get?_eq_getElem?, List.getElem?_set_self hbound]
            rfl
          | succ j1 =>
            have hj1 : j1 < r := Nat.lt_of_succ_lt_succ hj
            have hb1 : (index + 1) + j1 < (mem.set_entry index e0).rawWords.length := by
              rw [hsetlen]
              omega
            have := hat j1 hj1 hb1
            rw [show (index + 1) + j1 = index + (j1 + 1) from by omega] at this
            rw [this]
            rfl
        · show (PageTableEntry.entryRawAgrees e0
            && PageTableEntry.listRawAgrees es1) = true
          rw [Bool.and_eq_true]
          exact ⟨copy_entry_step_raw f layout ps level Hf _ t e0 t1 hstep, hagree⟩

/-- A successful copy loop at level 1 decoded every valid raw word as a
leaf. -/
theorem copy_loop_level1_valid_leaf
    (f : Nat → PageTableLevel → MemoryTracker → Except Error (PageTable × MemoryTracker))
    (layout : MemoryLayout) (ps : PagingSystem) :
    ∀ (remaining index : Nat) (mem : PageTableMemory) (t : MemoryTracker)
      (out : List PageTableEntry × PageTableMemory × MemoryTracker),
      PageTable.copy_entries_loop f layout ps .Level1 index remaining mem t = .ok out →
      ∀ j, j < remaining →
        PageTableBits.is_valid (mem.rawWords.getD (index + j) 0) = true →
        PageTableBits.is_leaf (mem.rawWords.getD (index + j) 0) = true := by
  intro remaining
  induction remaining with
  | zero => intro index mem t out _ j hj; exact absurd hj (by simp)
  | succ r ih =>
    intro index mem t out h j hj hv
    simp only [PageTable.copy_entries_loop] at h
    cases hstep : PageTable.copy_entry_step f layout ps .Level1
        (mem.rawWords.getD index 0) t with
    | error e => rw [hstep] at h; exact absurd h (by simp)
    | ok pr =>
      obtain ⟨e0, t1⟩ := pr
      rw [hstep] at h
      simp only [] at h
      cases hloop : PageTable.copy_entries_loop f layout ps .Level1 (index + 1) r
          (mem.set_entry index e0) t1 with
      | error e => rw [hloop] at h; exact absurd h (by simp)
      | ok pr2 =>
        cases j with
        | zero =>
          rw [Nat.add_zero] at hv ⊢
          exact copy_entry_step_level1_ok_leaf f layout ps _ t (e0, t1) hstep hv
        | succ j1 =>
          have hj1 : j1 < r := Nat.lt_of_succ_lt_succ hj
          have hgd : (mem.set_entry index e0).rawWords.getD ((index + 1) + j1) 0
              = mem.rawWords.getD (index + (j1 + 1)) 0 := by
            show (mem.rawWords.set index e0.encode).getD ((index + 1) + j1) 0
              = mem.rawWords.getD (index + (j1 + 1)) 0
            rw [getD_set_ne _ _ _ _ _ (by omega)]
            rw [show (index + 1) + j1 = index + (j1 + 1) from by omega]
          have := ih (index + 1) (mem.set_entry index e0) t1 pr2 hloop j1 hj1
            (by rw [hgd]; exact hv)
          rw [hgd] at this
          exact this

/-- When the raw words before some position are invalid and the word at that
position is valid but no leaf, the level-1 copy loop fails with
`PageTableCorrupted`. -/
theorem copy_loop_level1_prefix_error
    (f : Nat → PageTableLevel → MemoryTracker → Except Error (PageTable × MemoryTracker))
    (layout : MemoryLayout) (ps : PagingSystem) :
    ∀ (j remaining index : Nat) (mem : PageTableMemory) (t : MemoryTracker),
      j < remaining →
      (∀ k, k < j → PageTableBits.is_valid (mem.rawWords.getD (index + k) 0) = false) →
      PageTableBits.is_valid (mem.rawWords.getD (index + j) 0) = true →
      PageTableBits.is_leaf (mem.rawWords.getD (index + j) 0) = false →
      PageTable.copy_entries_loop f layout ps .Level1 index remaining mem t
        = .error .PageTableCorrupted := by
  intro j
  induction j with
  | zero =>
    intro remaining index mem t hlt hpre hv hl
    cases remaining with
    | zero => exact absurd hlt (by simp)
    | succ r =>
      rw [Nat.add_zero] at hv hl
      simp only [PageTable.copy_entries_loop]
      rw [copy_entry_step_level1_pointer f layout ps _ t hv hl]
  | succ j1 ih =>
    intro remaining index mem t hlt hpre hv hl
    cases remaining with
    | zero => exact absurd hlt (by simp)
    | succ r =>
      have h0 : PageTableBits.is_valid (mem.rawWords.getD (index + 0) 0) = false :=
        hpre 0 (Nat.succ_pos j1)
      rw [Nat.add_zero] at h0
      simp only [PageTable.copy_entries_loop]
      rw [copy_entry_step_invalid f layout ps .Level1 _ t h0]
      simp only []
      have hgd : ∀ n, (mem.set_entry index .NotValid).rawWords.getD ((index + 1) + n) 0
          = mem.rawWords.getD (index + (n + 1)) 0 := by
        intro n
        show (mem.rawWords.set index PageTableEntry.NotValid.encode).getD ((index + 1) + n) 0
          = mem.rawWords.getD (index + (n + 1)) 0
        rw [getD_set_ne _ _ _ _ _ (by omega)]
        rw [show (index + 1) + n = index + (n + 1) from by omega]
      rw [ih r (index + 1) (mem.set_entry index .NotValid) t
        (Nat.lt_of_succ_lt_succ hlt)
        (fun k hk => by rw [hgd k]; exact hpre (k + 1) (Nat.succ_lt_succ hk))
        (by rw [hgd j1]; exact hv)
        (by rw [hgd j1]; exact hl)]

/-- When every raw word of the region is invalid, the copy loop succeeds,
producing only `NotValid` entries and leaving the tracker untouched. -/
theorem copy_loop_all_invalid_ok
    (f : Nat → PageTableLevel → MemoryTracker → Except Error (PageTable × MemoryTracker))
    (layout : MemoryLayout) (ps : PagingSystem) (level : PageTableLevel) :
    ∀ (remaining index : Nat) (mem : PageTableMemory) (t : MemoryTracker),
      (∀ j, j < remaining →
        PageTableBits.is_valid (mem.rawWords.getD (index + j) 0) = false) →
      ∃ es mem2, PageTable.copy_entries_loop f layout ps level index remaining mem t
        = .ok (es, mem2, t) := by
  intro remaining
  induction remaining with
  | zero => intro index mem t _; exact ⟨[], mem, rfl⟩
  | succ r ih =>
    intro index mem t hpre
    have h0 : PageTableBits.is_valid (mem.rawWords.getD (index + 0) 0) = false :=
      hpre 0 (Nat.succ_pos r)
    rw [Nat.add_zero] at h0
    obtain ⟨es1, mem3, hloop⟩ := ih (index + 1) (mem.set_entry index .NotValid) t
      (fun k hk => by
        show (mem.rawWords.set index PageTableEntry.NotValid.encode).getD
            ((index + 1) + k) 0 = false |> fun _ => _
        rw [show ((mem.set_entry index .NotValid).rawWords.getD ((index + 1) + k) 0)
            = mem.rawWords.getD (index + (k + 1)) 0 from by
          show (mem.rawWords.set index PageTableEntry.NotValid.encode).getD
              ((index + 1) + k) 0 = _
          rw [getD_set_ne _ _ _ _ _ (by omega)]
          rw [show (index + 1) + k = index + (k + 1) from by omega]]
        exact hpre (k + 1) (Nat.succ_lt_succ hk))
    refine ⟨.NotValid :: es1, mem3, ?_⟩
    simp only [PageTable.copy_entries_loop]
    rw [copy_entry_step_invalid f layout ps level _ t h0]
    simp only []
    rw [hloop]

/-- The recursive deep copy from an all-confidential pool produces a
confidential tree and keeps the pool all-confidential. -/
theorem copy_aux_confidential (m : MemoryLayout) (ncm : Nat → Nat) (layout : MemoryLayout)
    (ps : PagingSystem) :
    ∀ (fuel : Nat) (address : Nat) (level : PageTableLevel) (t : MemoryTracker)
      (pt : PageTable) (t1 : MemoryTracker),
      t.allConfidential m = true →
      PageTable.copy_aux ncm layout ps fuel address level t = .ok (pt, t1) →
      PageTable.confidential m pt = true ∧ t1.allConfidential m = true := by
  intro fuel
  induction fuel with
  | zero =>
    intro address level t pt t1 _ h
    exact absurd h (by simp [PageTable.copy_aux])
  | succ n ih =>
    intro address level t pt t1 hall h
    simp only [PageTable.copy_aux] at h
    cases hmc : PageTableMemory.copy_from_non_confidential_memory ncm address ps level t with
    | error e => rw [hmc] at h; exact absurd h (by simp)
    | ok pr =>
      obtain ⟨mem0, t2⟩ := pr
      rw [hmc] at h
      simp only [] at h
      cases hloop : PageTable.copy_entries_loop (PageTable.copy_aux ncm layout ps n)
          layout ps level 0 mem0.number_of_entries mem0 t2 with
      | error e => rw [hloop] at h; exact absurd h (by simp)
      | ok pr2 =>
        obtain ⟨es, mem2, t3⟩ := pr2
        rw [hloop] at h
        simp only [Except.ok.injEq, Prod.mk.injEq] at h
        obtain ⟨hpt, ht⟩ := h
        subst hpt
        subst ht
        obtain ⟨hpages0, ht2⟩ :=
          memcopy_confidential m ncm address ps level t mem0 t2 hall hmc
        obtain ⟨hes, hpages, ht3⟩ := copy_loop_confidential m
          (PageTable.copy_aux ncm layout ps n) layout ps level
          (fun a l tr c tr1 htr hf => ih a l tr c tr1 htr hf)
          mem0.number_of_entries 0 mem0 t2 es mem2 t3 ht2 hloop
        refine ⟨?_, ht3⟩
        show (mem2.pages.all (Page.isConfidential m)
          && PageTableEntry.listConfidential m es) = true
        rw [Bool.and_eq_true, hpages]
        exact ⟨hpages0, hes⟩

/-- The recursive deep copy produces a tree in which every raw word encodes
the logical entry stored at the same index. -/
theorem copy_aux_rawAgrees (ncm : Nat → Nat) (layout : MemoryLayout) (ps : PagingSystem) :
    ∀ (fuel : Nat) (address : Nat) (level : PageTableLevel) (t : MemoryTracker)
      (pt : PageTable) (t1 : MemoryTracker),
      PageTable.copy_aux ncm layout ps fuel address level t = .ok (pt, t1) →
      PageTable.rawAgrees pt = true := by
  intro fuel
  induction fuel with
  | zero =>
    intro address level t pt t1 h
    exact absurd h (by simp [PageTable.copy_aux])
  | succ n ih =>
    intro address level t pt t1 h
    simp only [PageTable.copy_aux] at h
    cases hmc : PageTableMemory.copy_from_non_confidential_memory ncm address ps level t with
    | error e => rw [hmc] at h; exact absurd h (by simp)
    | ok pr =>
      obtain ⟨mem0, t2⟩ := pr
      rw [hmc] at h
      simp only [] at h
      cases hloop : PageTable.copy_entries_loop (PageTable.copy_aux ncm layout ps n)
          layout ps level 0 mem0.number_of_entries mem0 t2 with
      | error e => rw [hloop] at h; exact absurd h (by simp)
      | ok pr2 =>
        obtain ⟨es, mem2, t3⟩ := pr2
        rw [hloop] at h
        simp only [Except.ok.injEq, Prod.mk.injEq] at h
        obtain ⟨hpt, ht⟩ := h
        subst hpt
        subst ht
        obtain ⟨hlen, hlen2, -, hat, hagree⟩ := copy_loop_raw
          (PageTable.copy_aux ncm layout ps n) layout ps level
          (fun a l tr c tr1 hf => ih a l tr c tr1 hf)
          mem0.number_of_entries 0 mem0 t2 es mem2 t3 hloop
        show (wordsMatch mem2.rawWords es && PageTableEntry.listRawAgrees es) = true
        rw [Bool.and_eq_true]
        refine ⟨wordsMatch_of_get? mem2.rawWords es ?_, hagree⟩
        intro j hj
        have hj' : j < mem0.number_of_entries := by rw [← hlen]; exact hj
        have := hat j hj' (by simpa [PageTableMemory.number_of_entries] using hj')
        simpa using this

/-- When every raw word of the hypervisor table is invalid and the pool
holds enough 4 KiB pages for the backing region, the deep copy succeeds. -/
theorem copy_ok_of_all_invalid (ncm : Nat → Nat) (layout : MemoryLayout) (ps : PagingSystem)
    (address : Nat) (level : PageTableLevel) (t : MemoryTracker)
    (hwords : ∀ i, i < ps.entries level →
      PageTableBits.is_valid (ncm (address + ps.entry_size * i)) = false)
    (hpool : ps.configuration_pages level
      ≤ (t.pool.filter (fun p => decide (p.size = PageSize.Size4KiB))).length) :
    ∃ pt t1, PageTable.copy_from_non_confidential_memory ncm layout address ps level t
      = .ok (pt, t1) := by
  obtain ⟨mem0, t1, hmc⟩ := memcopy_ok_of_le ncm address ps level t hpool
  obtain ⟨hraw, -⟩ := memcopy_ok_shape ncm address ps level t mem0 t1 hmc
  have hwords' : ∀ j, j < mem0.number_of_entries →
      PageTableBits.is_valid (mem0.rawWords.getD (0 + j) 0) = false := by
    intro j hj
    have hjlen : j < mem0.rawWords.length := hj
    have hjent : j < ps.entries level := by
      rw [hraw] at hjlen
      simpa using hjlen
    have : mem0.rawWords.getD (0 + j) 0 = ncm (address + ps.entry_size * j) := by
      rw [Nat.zero_add, List.getD_eq_getD_get?, hraw, List.get?_map,
        List.get?_range hjent]
      rfl
    rw [this]
    exact hwords j hjent
  obtain ⟨es, mem2, hloop⟩ := copy_loop_all_invalid_ok
    (PageTable.copy_aux ncm layout ps (level.depth - 1)) layout ps level
    mem0.number_of_entries 0 mem0 t1 hwords'
  refine ⟨.mk level mem2 es, t1, ?_⟩
  unfold PageTable.copy_from_non_confidential_memory
  rw [show level.depth = (level.depth - 1) + 1 from by cases level <;> rfl]
  simp only [PageTable.copy_aux]
  rw [hmc]
  simp only []
  rw [hloop]

/-- `map_shared_page` never changes a table's level or backing pages (only
raw words and logical entries change). -/
theorem map_aux_preserves (ps : PagingSystem) (sp : SharedPage) :
    ∀ (fuel : Nat) (t : PageTable) (tr : MemoryTracker) (pt : PageTable)
      (tr1 : MemoryTracker),
      PageTable.map_aux ps sp fuel t tr = .ok (pt, tr1) →
      pt.level = t.level ∧ pt.page_table_memory.pages = t.page_table_memory.pages := by
  intro fuel
  induction fuel with
  | zero => intro t tr pt tr1 h; exact absurd h (by simp [PageTable.map_aux])
  | succ n ih =>
    intro t tr pt tr1 h
    obtain ⟨level, mem, entries⟩ := t
    simp only [PageTable.map_aux] at h
    cases hget : entries.get? (ps.vpn sp.confidential_vm_virtual_address level) with
    | none => rw [hget] at h; exact absurd h (by simp)
    | some e =>
      rw [hget] at h
      cases e with
      | Pointer next cfg =>
        simp only [] at h
        cases hrec : PageTable.map_aux ps sp n next tr with
        | error err => rw [hrec] at h; exact absurd h (by simp)
        | ok pr =>
          obtain ⟨next1, tr2⟩ := pr
          rw [hrec] at h
          simp only [Except.ok.injEq, Prod.mk.injEq] at h
          obtain ⟨hpt, htr⟩ := h
          subst hpt
          subst htr
          exact ⟨rfl, rfl⟩
      | Leaf page c p =>
        simp only [PageTable.set_entry, Except.ok.injEq, Prod.mk.injEq] at h
        obtain ⟨hpt, -⟩ := h
        subst hpt
        exact ⟨rfl, rfl⟩
      | Shared a c p =>
        simp only [PageTable.set_entry, Except.ok.injEq, Prod.mk.injEq] at h
        obtain ⟨hpt, -⟩ := h
        subst hpt
        exact ⟨rfl, rfl⟩
      | NotValid =>
        simp only [] at h
        by_cases hlev : level = PageTableLevel.Level1
        · rw [if_pos hlev] at h
          simp only [PageTable.set_entry, Except.ok.injEq, Prod.mk.injEq] at h
          obtain ⟨hpt, -⟩ := h
          subst hpt
          exact ⟨rfl, rfl⟩
        · rw [if_neg hlev] at h
          cases hemp : PageTable.empty ps level tr with
          | error err => rw [hemp] at h; exact absurd h (by simp)
          | ok pr =>
            obtain ⟨child, tr2⟩ := pr
            rw [hemp] at h
            simp only [] at h
            obtain ⟨m2, hchild⟩ := empty_entries_nil ps level tr child tr2 hemp
            subst hchild
            rw [map_aux_empty_entries ps sp n level m2 tr2] at h
            exact absurd h (by simp)

/-- `map_shared_page` preserves the isolation invariant: from a confidential
tree and an all-confidential pool it produces a confidential tree and an
all-confidential pool (a displaced leaf page returns to the pool). -/
theorem map_aux_confidential (m : MemoryLayout) (ps : PagingSystem) (sp : SharedPage) :
    ∀ (fuel : Nat) (t : PageTable) (tr : MemoryTracker) (pt : PageTable)
      (tr1 : MemoryTracker),
      PageTable.map_aux ps sp fuel t tr = .ok (pt, tr1) →
      PageTable.confidential m t = true → tr.allConfidential m = true →
      PageTable.confidential m pt = true ∧ tr1.allConfidential m = true := by
  intro fuel
  induction fuel with
  | zero => intro t tr pt tr1 h; exact absurd h (by simp [PageTable.map_aux])
  | succ n ih =>
    intro t tr pt tr1 h hconf htr
    obtain ⟨level, mem, entries⟩ := t
    have hconf' : (mem.pages.all (Page.isConfidential m)
        && PageTableEntry.listConfidential m entries) = true := hconf
    rw [Bool.and_eq_true] at hconf'
    obtain ⟨hmem, hes⟩ := hconf'
    simp only [PageTable.map_aux] at h
    cases hget : entries.get? (ps.vpn sp.confidential_vm_virtual_address level) with
    | none => rw [hget] at h; exact absurd h (by simp)
    | some e =>
      rw [hget] at h
      cases e with
      | Pointer next cfg =>
        simp only [] at h
        cases hrec : PageTable.map_aux ps sp n next tr with
        | error err => rw [hrec] at h; exact absurd h (by simp)
        | ok pr =>
          obtain ⟨next1, tr2⟩ := pr
          rw [hrec] at h
          simp only [Except.ok.injEq, Prod.mk.injEq] at h
          obtain ⟨hpt, htr2⟩ := h
          subst hpt
          subst htr2
          have hnext : PageTable.confidential m next = true :=
            listConfidential_get? m entries _ _ hes hget
          obtain ⟨hnext1, htr1⟩ := ih next tr next1 _ hrec hnext htr
          refine ⟨?_, htr1⟩
          show (mem.pages.all (Page.isConfidential m)
            && PageTableEntry.listConfidential m
              (entries.set (ps.vpn sp.confidential_vm_virtual_address level)
                (.Pointer next1 cfg))) = true
          rw [Bool.and_eq_true]
          exact ⟨hmem, listConfidential_set m entries _ _ hes hnext1⟩
      | Leaf page c p =>
        have hgd : entries.getD (ps.vpn sp.confidential_vm_virtual_address level)
            PageTableEntry.NotValid = .Leaf page c p := by
          rw [List.getD_eq_getD_get?, hget]
          rfl
        simp only [PageTable.set_entry, hgd, Except.ok.injEq, Prod.mk.injEq] at h
        obtain ⟨hpt, htr1⟩ := h
        subst hpt
        subst htr1
        constructor
        · show (mem.pages.all (Page.isConfidential m)
            && PageTableEntry.listConfidential m
              (entries.set (ps.vpn sp.confidential_vm_virtual_address level)
                (.Shared sp.hypervisor_address
                  PageTableConfiguration.shared_page_configuration
                  PageTablePermission.shared_page_permission))) = true
          rw [Bool.and_eq_true]
          exact ⟨hmem, listConfidential_set m entries _ _ hes rfl⟩
        · have hpage : Page.isConfidential m page = true :=
            listConfidential_get? m entries _ _ hes hget
          show ((page :: tr.pool).all (Page.isConfidential m)) = true
          rw [List.all_cons, Bool.and_eq_true]
          exact ⟨hpage, htr⟩
      | Shared a c p =>
        have hgd : entries.getD (ps.vpn sp.confidential_vm_virtual_address level)
            PageTableEntry.NotValid = .Shared a c p := by
          rw [List.getD_eq_getD_get?, hget]
          rfl
        simp only [PageTable.set_entry, hgd, Except.ok.injEq, Prod.mk.injEq] at h
        obtain ⟨hpt, htr1⟩ := h
        subst hpt
        subst htr1
        refine ⟨?_, htr⟩
        show (mem.pages.all (Page.isConfidential m)
          && PageTableEntry.listConfidential m
            (entries.set (ps.vpn sp.confidential_vm_virtual_address level)
              (.Shared sp.hypervisor_address
                PageTableConfiguration.shared_page_configuration
                PageTablePermission.shared_page_permission))) = true
        rw [Bool.and_eq_true]
        exact ⟨hmem, listConfidential_set m entries _ _ hes rfl⟩
      | NotValid =>
        simp only [] at h
        by_cases hlev : level = PageTableLevel.Level1
        · rw [if_pos hlev] at h
          have hgd : entries.getD (ps.vpn sp.confidential_vm_virtual_address level)
              PageTableEntry.NotValid = PageTableEntry.NotValid := by
            rw [List.getD_eq_getD_get?, hget]
            rfl
          simp only [PageTable.set_entry, hgd, Except.ok.injEq, Prod.mk.injEq] at h
          obtain ⟨hpt, htr1⟩ := h
          subst hpt
          subst htr1
          refine ⟨?_, htr⟩
          show (mem.pages.all (Page.isConfidential m)
            && PageTableEntry.listConfidential m
              (entries.set (ps.vpn sp.confidential_vm_virtual_address level)
                (.Shared sp.hypervisor_address
                  PageTableConfiguration.shared_page_configuration
                  PageTablePermission.shared_page_permission))) = true
          rw [Bool.and_eq_true]
          exact ⟨hmem, listConfidential_set m entries _ _ hes rfl⟩
        · rw [if_neg hlev] at h
          cases hemp : PageTable.empty ps level tr with
          | error err => rw [hemp] at h; exact absurd h (by simp)
          | ok pr =>
            obtain ⟨child, tr2⟩ := pr
            rw [hemp] at h
            simp only [] at h
            obtain ⟨m2, hchild⟩ := empty_entries_nil ps level tr child tr2 hemp
            subst hchild
            rw [map_aux_empty_entries ps sp n level m2 tr2] at h
            exact absurd h (by simp)

/-- `map_shared_page` preserves raw/logical agreement over the whole tree. -/
theorem map_aux_rawAgrees (ps : PagingSystem) (sp : SharedPage) :
    ∀ (fuel : Nat) (t : PageTable) (tr : MemoryTracker) (pt : PageTable)
      (tr1 : MemoryTracker),
      PageTable.map_aux ps sp fuel t tr = .ok (pt, tr1) →
      PageTable.rawAgrees t = true → PageTable.rawAgrees pt = true := by
  intro fuel
  induction fuel with
  | zero => intro t tr pt tr1 h; exact absurd h (by simp [PageTable.map_aux])
  | succ n ih =>
    intro t tr pt tr1 h hagree
    obtain ⟨level, mem, entries⟩ := t
    have hagree' : (wordsMatch mem.rawWords entries
        && PageTableEntry.listRawAgrees entries) = true := hagree
    rw [Bool.and_eq_true] at hagree'
    obtain ⟨hwm, hla⟩ := hagree'
    simp only [PageTable.map_aux] at h
    cases hget : entries.get? (ps.vpn sp.confidential_vm_virtual_address level) with
    | none => rw [hget] at h; exact absurd h (by simp)
    | some e =>
      rw [hget] at h
      cases e with
      | Pointer next cfg =>
        simp only [] at h
        cases hrec : PageTable.map_aux ps sp n next tr with
        | error err => rw [hrec] at h; exact absurd h (by simp)
        | ok pr =>
          obtain ⟨next1, tr2⟩ := pr
          rw [hrec] at h
          simp only [Except.ok.injEq, Prod.mk.injEq] at h
          obtain ⟨hpt, htr2⟩ := h
          subst hpt
          subst htr2
          have hnext : PageTable.rawAgrees next = true :=
            listRawAgrees_get? entries _ _ hla hget
          have hnext1 := ih next tr next1 _ hrec hnext
          have haddr : next1.address = next.address := by
            unfold PageTable.address PageTableMemory.start_address
            rw [(map_aux_preserves ps sp n next tr next1 _ hrec).2]
          have henc : PageTableEntry.encode (.Pointer next1 cfg)
              = PageTableEntry.encode (.Pointer next cfg) := by
            show PageTableAddress.encode next1.address + cfg.encode + 1
              = PageTableAddress.encode next.address + cfg.encode + 1
            rw [haddr]
          show (wordsMatch mem.rawWords
              (entries.set (ps.vpn sp.confidential_vm_virtual_address level)
                (.Pointer next1 cfg))
            && PageTableEntry.listRawAgrees
              (entries.set (ps.vpn sp.confidential_vm_virtual_address level)
                (.Pointer next1 cfg))) = true
          rw [Bool.and_eq_true]
          exact ⟨wordsMatch_set_congr mem.rawWords entries _ _ _ hwm hget henc,
            listRawAgrees_set entries _ _ hla hnext1⟩
      | Leaf page c p =>
        have hgd : entries.getD (ps.vpn sp.confidential_vm_virtual_address level)
            PageTableEntry.NotValid = .Leaf page c p := by
          rw [List.getD_eq_getD_get?, hget]
          rfl
        simp only [PageTable.set_entry, hgd, Except.ok.injEq, Prod.mk.injEq] at h
        obtain ⟨hpt, -⟩ := h
        subst hpt
        show (wordsMatch
            (mem.rawWords.set (ps.vpn sp.confidential_vm_virtual_address level)
              (PageTableEntry.encode (.Shared sp.hypervisor_address
                PageTableConfiguration.shared_page_configuration
                PageTablePermission.shared_page_permission)))
            (entries.set (ps.vpn sp.confidential_vm_virtual_address level)
              (.Shared sp.hypervisor_address
                PageTableConfiguration.shared_page_configuration
                PageTablePermission.shared_page_permission))
          && PageTableEntry.listRawAgrees
            (entries.set (ps.vpn sp.confidential_vm_virtual_address level)
              (.Shared sp.hypervisor_address
                PageTableConfiguration.shared_page_configuration
                PageTablePermission.shared_page_permission))) = true
        rw [Bool.and_eq_true]
        exact ⟨wordsMatch_set mem.rawWords entries _ _ hwm,
          listRawAgrees_set entries _ _ hla rfl⟩
      | Shared a c p =>
        have hgd : entries.getD (ps.vpn sp.confidential_vm_virtual_address level)
            PageTableEntry.NotValid = .Shared a c p := by
          rw [List.getD_eq_getD_get?, hget]
          rfl
        simp only [PageTable.set_entry, hgd, Except.ok.injEq, Prod.mk.injEq] at h
        obtain ⟨hpt, -⟩ := h
        subst hpt
        show (wordsMatch
            (mem.rawWords.set (ps.vpn sp.confidential_vm_virtual_address level)
              (PageTableEntry.encode (.Shared sp.hypervisor_address
                PageTableConfiguration.shared_page_configuration
                PageTablePermission.shared_page_permission)))
            (entries.set (ps.vpn sp.confidential_vm_virtual_address level)
              (.Shared sp.hypervisor_address
                PageTableConfiguration.shared_page_configuration
                PageTablePermission.shared_page_permission))
          && PageTableEntry.listRawAgrees
            (entries.set (ps.vpn sp.confidential_vm_virtual_address level)
              (.Shared sp.hypervisor_address
                PageTableConfiguration.shared_page_configuration
                PageTablePermission.shared_page_permission))) = true
        rw [Bool.and_eq_true]
        exact ⟨wordsMatch_set mem.rawWords entries _ _ hwm,
          listRawAgrees_set entries _ _ hla rfl⟩
      | NotValid =>
        simp only [] at h
        by_cases hlev : level = PageTableLevel.Level1
        · rw [if_pos hlev] at h
          have hgd : entries.getD (ps.vpn sp.confidential_vm_virtual_address level)
              PageTableEntry.NotValid = PageTableEntry.NotValid := by
            rw [List.getD_eq_getD_get?, hget]
            rfl
          simp only [PageTable.set_entry, hgd, Except.ok.injEq, Prod.mk.injEq] at h
          obtain ⟨hpt, -⟩ := h
          subst hpt
          show (wordsMatch
              (mem.rawWords.set (ps.vpn sp.confidential_vm_virtual_address level)
                (PageTableEntry.encode (.Shared sp.hypervisor_address
                  PageTableConfiguration.shared_page_configuration
                  PageTablePermission.shared_page_permission)))
              (entries.set (ps.vpn sp.confidential_vm_virtual_address level)
                (.Shared sp.hypervisor_address
                  PageTableConfiguration.shared_page_configuration
                  PageTablePermission.shared_page_permission))
            && PageTableEntry.listRawAgrees
              (entries.set (ps.vpn sp.confidential_vm_virtual_address level)
                (.Shared sp.hypervisor_address
                  PageTableConfiguration.shared_page_configuration
                  PageTablePermission.shared_page_permission))) = true
          rw [Bool.and_eq_true]
          exact ⟨wordsMatch_set mem.rawWords entries _ _ hwm,
            listRawAgrees_set entries _ _ hla rfl⟩
        · rw [if_neg hlev] at h
          cases hemp : PageTable.empty ps level tr with
          | error err => rw [hemp] at h; exact absurd h (by simp)
          | ok pr =>
            obtain ⟨child, tr2⟩ := pr
            rw [hemp] at h
            simp only [] at h
            obtain ⟨m2, hchild⟩ := empty_entries_nil ps level tr child tr2 hemp
            subst hchild
            rw [map_aux_empty_entries ps sp n level m2 tr2] at h
            exact absurd h (by simp)

/-- A successful `RootPageTable::map_shared_page` is a successful
`PageTable::map_shared_page` on the root's table. -/
theorem root_map_ok (rt : RootPageTable) (sp : SharedPage) (tr : MemoryTracker)
    (rt1 : RootPageTable) (tr1 : MemoryTracker)
    (h : rt.map_shared_page sp tr = .ok (rt1, tr1)) :
    PageTable.map_shared_page rt.paging_system rt.page_table sp tr
      = .ok (rt1.page_table, tr1) := by
  unfold RootPageTable.map_shared_page at h
  cases hm : PageTable.map_shared_page rt.paging_system rt.page_table sp tr with
  | error e => rw [hm] at h; exact absurd h (by simp)
  | ok pr =>
    obtain ⟨pt, tr2⟩ := pr
    rw [hm] at h
    simp only [Except.ok.injEq, Prod.mk.injEq] at h
    obtain ⟨hrt, htr⟩ := h
    subst htr
    subst hrt
    rfl

/-- A successful `PageTable` deep copy at the root level is a successful
`RootPageTable` deep copy. -/
theorem root_copy_ok (ncm : Nat → Nat) (layout : MemoryLayout) (address : Nat)
    (ps : PagingSystem) (t : MemoryTracker) (pt : PageTable) (t1 : MemoryTracker)
    (h : PageTable.copy_from_non_confidential_memory ncm layout address ps ps.levels t
      = .ok (pt, t1)) :
    RootPageTable.copy_from_non_confidential_memory ncm layout address ps t
      = .ok (⟨ps, pt⟩, t1) := by
  unfold RootPageTable.copy_from_non_confidential_memory
  rw [h]

/-- Any sequence of `map_shared_page` calls preserves the isolation
invariant of the tree and the pool. -/
theorem applySeq_preserves_confidential (m : MemoryLayout) :
    ∀ (calls : List SharedPage) (rt : RootPageTable) (tr : MemoryTracker),
      PageTable.confidential m rt.page_table = true → tr.allConfidential m = true →
      PageTable.confidential m (applySharedPageCalls calls (rt, tr)).1.page_table = true ∧
      (applySharedPageCalls calls (rt, tr)).2.allConfidential m = true := by
  intro calls
  induction calls with
  | nil => intro rt tr h1 h2; exact ⟨h1, h2⟩
  | cons sp rest ih =>
    intro rt tr h1 h2
    simp only [applySharedPageCalls]
    cases hmap : rt.map_shared_page sp tr with
    | error e => exact ih rt tr h1 h2
    | ok st1 =>
      obtain ⟨rt1, tr1⟩ := st1
      have hm := root_map_ok rt sp tr rt1 tr1 hmap
      obtain ⟨hc, ht⟩ := map_aux_confidential m rt.paging_system sp
        (rt.page_table.treeSize + 1) rt.page_table tr rt1.page_table tr1 hm h1 h2
      exact ih rt1 tr1 hc ht

/-- C1: a page-table tree built by
`RootPageTable::copy_from_non_confidential_memory` from an all-confidential
page pool and then mutated by any sequence of `map_shared_page` calls keeps
every `Leaf` entry owning a page in confidential memory (and every backing
region confidential); non-confidential memory is referenced only through
`Shared` entries. -/
theorem leaf_entries_always_confidential (ncm : Nat → Nat) (layout : MemoryLayout)
    (address : Nat) (ps : PagingSystem) (t : MemoryTracker) (rt : RootPageTable)
    (tr1 : MemoryTracker) (calls : List SharedPage)
    (hpool : t.allConfidential layout = true)
    (hcopy : RootPageTable.copy_from_non_confidential_memory ncm layout address ps t
      = .ok (rt, tr1)) :
    PageTable.confidential layout (applySharedPageCalls calls (rt, tr1)).1.page_table
      = true := by
  unfold RootPageTable.copy_from_non_confidential_memory at hcopy
  cases hc : PageTable.copy_from_non_confidential_memory ncm layout address ps
      ps.levels t with
  | error e => rw [hc] at hcopy; exact absurd hcopy (by simp)
  | ok pr =>
    obtain ⟨pt, t2⟩ := pr
    rw [hc] at hcopy
    simp only [Except.ok.injEq, Prod.mk.injEq] at hcopy
    obtain ⟨hrt, htr⟩ := hcopy
    subst htr
    subst hrt
    obtain ⟨hconf, htr2⟩ := copy_aux_confidential layout ncm layout ps
      (ps.levels).depth address ps.levels t pt _ hpool hc
    exact (applySeq_preserves_confidential layout calls ⟨ps, pt⟩ _ hconf htr2).1

/-- C1 witness: an all-zero hypervisor table copied with an
all-confidential eight-page pool, followed by one `map_shared_page` call. -/
theorem leaf_entries_always_confidential_witness :
    MemoryTracker.allConfidential layout0 tracker0 = true ∧
    ∃ rt tr1,
      RootPageTable.copy_from_non_confidential_memory ncm0 layout0 0x8000000 .Sv57x4
        tracker0 = .ok (rt, tr1) ∧
      PageTable.confidential layout0
        (applySharedPageCalls [sharedPage0] (rt, tr1)).1.page_table = true := by
  refine ⟨by decide, ?_⟩
  obtain ⟨pt, t1, hcopy⟩ := copy_ok_of_all_invalid ncm0 layout0 .Sv57x4 0x8000000
    (PagingSystem.levels .Sv57x4) tracker0 (fun i _ => by simp [ncm0, PageTableBits.is_valid]) (by decide)
  have hroot : RootPageTable.copy_from_non_confidential_memory ncm0 layout0 0x8000000
      .Sv57x4 tracker0 = .ok (⟨.Sv57x4, pt⟩, t1) :=
    root_copy_ok ncm0 layout0 0x8000000 .Sv57x4 tracker0 pt t1 hcopy
  exact ⟨⟨.Sv57x4, pt⟩, t1, hroot,
    leaf_entries_always_confidential ncm0 layout0 0x8000000 .Sv57x4 tracker0
      ⟨.Sv57x4, pt⟩ t1 [sharedPage0] (by decide) hroot⟩

/-- C2: the raw word stored in the backing region agrees with the encoding
of the logical entry at every index of the logical sequence, after
construction by `copy_from_non_confidential_memory`, after construction by
`empty`, and after every `set_entry` performed during `map_shared_page`. -/
theorem raw_logical_agreement :
    (∀ (ncm : Nat → Nat) (layout : MemoryLayout) (address : Nat) (ps : PagingSystem)
      (level : PageTableLevel) (t : MemoryTracker) (pt : PageTable) (t1 : MemoryTracker),
      PageTable.copy_from_non_confidential_memory ncm layout address ps level t
        = .ok (pt, t1) → PageTable.rawAgrees pt = true) ∧
    (∀ (ps : PagingSystem) (level : PageTableLevel) (t : MemoryTracker) (pt : PageTable)
      (t1 : MemoryTracker),
      PageTable.empty ps level t = .ok (pt, t1) → PageTable.rawAgrees pt = true) ∧
    (∀ (ps : PagingSystem) (t : PageTable) (sp : SharedPage) (tr : MemoryTracker)
      (pt : PageTable) (tr1 : MemoryTracker),
      PageTable.rawAgrees t = true →
      PageTable.map_shared_page ps t sp tr = .ok (pt, tr1) →
      PageTable.rawAgrees pt = true) := by
  refine ⟨?_, ?_, ?_⟩
  · intro ncm layout address ps level t pt t1 h
    exact copy_aux_rawAgrees ncm layout ps level.depth address level t pt t1 h
  · intro ps level t pt t1 h
    obtain ⟨m2, hpt⟩ := empty_entries_nil ps level t pt t1 h
    subst hpt
    show (wordsMatch m2.rawWords [] && PageTableEntry.listRawAgrees []) = true
    rw [wordsMatch_nil]
    rfl
  · intro ps t sp tr pt tr1 ha h
    exact map_aux_rawAgrees ps sp (t.treeSize + 1) t tr pt tr1 h ha

/-- C2 witness: concrete instances of all three parts: a level-1 copy of an
all-zero table, a fresh empty table, and a shared-page installation over a
leaf. -/
theorem raw_logical_agreement_witness :
    (∃ pt t1, PageTable.copy_from_non_confidential_memory ncm0 layout0 0x8000000 .Sv57x4
        .Level1 tracker0 = .ok (pt, t1) ∧ PageTable.rawAgrees pt = true) ∧
    (∃ pt t1, PageTable.empty .Sv57x4 .Level1 tracker0 = .ok (pt, t1) ∧
      PageTable.rawAgrees pt = true) ∧
    (∃ pt tr1, PageTable.map_shared_page .Sv57x4 leafTable sharedPage0 ⟨[]⟩
        = .ok (pt, tr1) ∧ PageTable.rawAgrees pt = true) := by
  refine ⟨?_, ?_, ?_⟩
  · obtain ⟨pt, t1, hcopy⟩ := copy_ok_of_all_invalid ncm0 layout0 .Sv57x4 0x8000000
      .Level1 tracker0 (fun i _ => by simp [ncm0, PageTableBits.is_valid]) (by decide)
    exact ⟨pt, t1, hcopy,
      raw_logical_agreement.1 ncm0 layout0 0x8000000 .Sv57x4 .Level1 tracker0 pt t1 hcopy⟩
  · cases hemp : PageTable.empty .Sv57x4 .Level1 tracker0 with
    | error e =>
      have hok : (PageTable.empty .Sv57x4 .Level1 tracker0).isOk = true := rfl
      rw [hemp] at hok
      exact absurd hok (by simp [Except.isOk, Except.toBool])
    | ok pr =>
      obtain ⟨pt, t1⟩ := pr
      exact ⟨pt, t1, rfl,
        raw_logical_agreement.2.1 .Sv57x4 .Level1 tracker0 pt t1 hemp⟩
  · cases hmap : PageTable.map_shared_page .Sv57x4 leafTable sharedPage0 ⟨[]⟩ with
    | error e =>
      have hok : (PageTable.map_shared_page .Sv57x4 leafTable sharedPage0 ⟨[]⟩).isOk
          = true := rfl
      rw [hmap] at hok
      exact absurd hok (by simp [Except.isOk, Except.toBool])
    | ok pr =>
      obtain ⟨pt, tr1⟩ := pr
      exact ⟨pt, tr1, rfl,
        raw_logical_agreement.2.2 .Sv57x4 leafTable sharedPage0 ⟨[]⟩ pt tr1
          (by decide) hmap⟩

/-- Definitional unfolding of a level-1 deep copy: one backing-region copy
followed by the entry loop (the recursion fuel is exhausted below level 1,
which the loop never uses at level 1). -/
theorem copy_from_level1_eq (ncm : Nat → Nat) (layout : MemoryLayout) (address : Nat)
    (ps : PagingSystem) (t : MemoryTracker) :
    PageTable.copy_from_non_confidential_memory ncm layout address ps .Level1 t =
      match PageTableMemory.copy_from_non_confidential_memory ncm address ps .Level1 t with
      | .error e => .error e
      | .ok (mem0, t1) =>
        match PageTable.copy_entries_loop (PageTable.copy_aux ncm layout ps 0) layout ps
            .Level1 0 mem0.number_of_entries mem0 t1 with
        | .error e => .error e
        | .ok (entries, mem1, t2) => .ok (.mk .Level1 mem1 entries, t2) := rfl

/-- C8: during a level-1 deep copy, a valid raw entry that is not a leaf (a
pointer entry, impossible at the lowest level) prevents the copy from
producing a tree, and when the earlier entries are invalid the copy fails
with exactly `PageTableCorrupted`. -/
theorem level1_pointer_entry_rejected (ncm : Nat → Nat) (layout : MemoryLayout)
    (address : Nat) (ps : PagingSystem) (t : MemoryTracker) :
    (∀ (pt : PageTable) (t1 : MemoryTracker),
      PageTable.copy_from_non_confidential_memory ncm layout address ps .Level1 t
        = .ok (pt, t1) →
      ∀ i, i < ps.entries .Level1 →
        PageTableBits.is_valid (ncm (address + ps.entry_size * i)) = true →
        PageTableBits.is_leaf (ncm (address + ps.entry_size * i)) = true) ∧
    (∀ i, i < ps.entries .Level1 →
      (∀ k, k < i → PageTableBits.is_valid (ncm (address + ps.entry_size * k)) = false) →
      PageTableBits.is_valid (ncm (address + ps.entry_size * i)) = true →
      PageTableBits.is_leaf (ncm (address + ps.entry_size * i)) = false →
      ps.configuration_pages .Level1
        ≤ (t.pool.filter (fun p => decide (p.size = PageSize.Size4KiB))).length →
      PageTable.copy_from_non_confidential_memory ncm layout address ps .Level1 t
        = .error .PageTableCorrupted) := by
  constructor
  · intro pt t1 h i hi hv
    rw [copy_from_level1_eq] at h
    cases hmc : PageTableMemory.copy_from_non_confidential_memory ncm address ps
        .Level1 t with
    | error e => rw [hmc] at h; exact absurd h (by simp)
    | ok pr =>
      obtain ⟨mem0, t2⟩ := pr
      rw [hmc] at h
      simp only [] at h
      cases hloop : PageTable.copy_entries_loop (PageTable.copy_aux ncm layout ps 0)
          layout ps .Level1 0 mem0.number_of_entries mem0 t2 with
      | error e => rw [hloop] at h; exact absurd h (by simp)
      | ok pr2 =>
        obtain ⟨hraw, -⟩ := memcopy_ok_shape ncm address ps .Level1 t mem0 t2 hmc
        have hgd : mem0.rawWords.getD (0 + i) 0 = ncm (address + ps.entry_size * i) := by
          rw [Nat.zero_add, List.getD_eq_getD_get?, hraw, List.get?_map,
            List.get?_range (by simpa using hi)]
          rfl
        have hin : i < mem0.number_of_entries := by
          show i < mem0.rawWords.length
          rw [hraw]
          simpa using hi
        have := copy_loop_level1_valid_leaf (PageTable.copy_aux ncm layout ps 0)
          layout ps mem0.number_of_entries 0 mem0 t2 pr2 hloop i hin (by rw [hgd]; exact hv)
        rw [hgd] at this
        exact this
  · intro i hi hpre hv hl hpool
    obtain ⟨mem0, t1, hmc⟩ := memcopy_ok_of_le ncm address ps .Level1 t hpool
    obtain ⟨hraw, -⟩ := memcopy_ok_shape ncm address ps .Level1 t mem0 t1 hmc
    have hgd : ∀ n, n < ps.entries .Level1 →
        mem0.rawWords.getD (0 + n) 0 = ncm (address + ps.entry_size * n) := by
      intro n hn
      rw [Nat.zero_add, List.getD_eq_getD_get?, hraw, List.get?_map,
        List.get?_range (by simpa using hn)]
      rfl
    have hin : i < mem0.number_of_entries := by
      show i < mem0.rawWords.length
      rw [hraw]
      simpa using hi
    have hloop := copy_loop_level1_prefix_error (PageTable.copy_aux ncm layout ps 0)
      layout ps i mem0.number_of_entries 0 mem0 t1 hin
      (fun k hk => by
        rw [hgd k (Nat.lt_trans hk hi)]
        exact hpre k hk)
      (by rw [hgd i hi]; exact hv)
      (by rw [hgd i hi]; exact hl)
    rw [copy_from_level1_eq, hmc]
    simp only []
    rw [hloop]

/-- C8 witness: a hypervisor table whose level-1 raw words are all 1 (valid,
R/W/X clear: pointer entries); the copy is refused with
`PageTableCorrupted`. -/
theorem level1_pointer_entry_rejected_witness :
    PageTable.copy_from_non_confidential_memory ncm1 layout0 0x8000000 .Sv57x4 .Level1
      tracker0 = .error .PageTableCorrupted :=
  (level1_pointer_entry_rejected ncm1 layout0 0x8000000 .Sv57x4 tracker0).2 0 (by decide)
    (fun k hk => absurd hk (Nat.not_lt_zero k)) rfl rfl (by decide)

/-- C3 (refuted by the code): on a root table whose walked level-5 entry is
`NotValid`, `map_shared_page` does not install the mapping: the source
creates the child table at `self.level` (not `level.lower()`) and
`PageTable::empty` builds a zero-length entry vector, so the recursive call
fails with `PageTableConfiguration` and nothing is stored. -/
theorem map_shared_page_missing_intermediate_fails :
    PageTable.map_shared_page .Sv57x4 emptyRoot sharedPage0 tracker0
      = .error .PageTableConfiguration := by
  rfl

/-- C7: reaching a `Leaf` entry replaces it with a `Shared` entry carrying
the new hypervisor address and the shared-page configuration and permission,
releasing the displaced owned page to the Memory Tracker; reaching a
`Shared` entry replaces it with the new `Shared` entry and releases
nothing. -/
theorem map_shared_page_replaces_leaf_and_shared (ps : PagingSystem)
    (level : PageTableLevel) (mem : PageTableMemory) (entries : List PageTableEntry)
    (sp : SharedPage) (tr : MemoryTracker) :
    (∀ page lcfg lperm,
      entries.get? (ps.vpn sp.confidential_vm_virtual_address level)
          = some (.Leaf page lcfg lperm) →
      PageTable.map_shared_page ps (.mk level mem entries) sp tr =
        .ok (.mk level
          (mem.set_entry (ps.vpn sp.confidential_vm_virtual_address level) (sharedEntryOf sp))
          (entries.set (ps.vpn sp.confidential_vm_virtual_address level) (sharedEntryOf sp)),
          tr.release_page page)) ∧
    (∀ a0 c0 p0,
      entries.get? (ps.vpn sp.confidential_vm_virtual_address level)
          = some (.Shared a0 c0 p0) →
      PageTable.map_shared_page ps (.mk level mem entries) sp tr =
        .ok (.mk level
          (mem.set_entry (ps.vpn sp.confidential_vm_virtual_address level) (sharedEntryOf sp))
          (entries.set (ps.vpn sp.confidential_vm_virtual_address level) (sharedEntryOf sp)),
          tr)) := by
  constructor
  · intro page lcfg lperm hget
    simp only [PageTable.map_shared_page, PageTable.map_aux, hget]
    simp only [PageTable.set_entry, sharedEntryOf, List.getD_eq_getD_get?, hget,
      Option.getD_some]
  · intro a0 c0 p0 hget
    simp only [PageTable.map_shared_page, PageTable.map_aux, hget]
    simp only [PageTable.set_entry, sharedEntryOf, List.getD_eq_getD_get?, hget,
      Option.getD_some]

/-- C7 witness: a concrete leaf entry is displaced (its page is released to
the pool) and a concrete shared entry is re-shared (nothing is released). -/
theorem map_shared_page_replaces_leaf_and_shared_witness :
    (PageTable.map_shared_page .Sv57x4 leafTable sharedPage0 ⟨[]⟩ =
      .ok (.mk .Level1
        ((⟨[⟨0x1002000, .Size4KiB⟩], [PageTableEntry.encode
            (.Leaf ⟨0x1003000, .Size4KiB⟩ PageTableConfiguration.empty
              ⟨true, true, true⟩)]⟩ : PageTableMemory).set_entry 0 (sharedEntryOf sharedPage0))
        ([PageTableEntry.Leaf ⟨0x1003000, .Size4KiB⟩ PageTableConfiguration.empty
            ⟨true, true, true⟩].set 0 (sharedEntryOf sharedPage0)),
        MemoryTracker.release_page ⟨[]⟩ ⟨0x1003000, .Size4KiB⟩)) ∧
    (PageTable.map_shared_page .Sv57x4 sharedTable sharedPage0 ⟨[]⟩ =
      .ok (.mk .Level1
        ((⟨[⟨0x1002000, .Size4KiB⟩], [PageTableEntry.encode
            (sharedEntryOf ⟨0x8200000, 0⟩)]⟩ : PageTableMemory).set_entry 0
              (sharedEntryOf sharedPage0))
        ([sharedEntryOf ⟨0x8200000, 0⟩].set 0 (sharedEntryOf sharedPage0)),
        (⟨[]⟩ : MemoryTracker))) :=
  ⟨(map_shared_page_replaces_leaf_and_shared .Sv57x4 .Level1 _ _ sharedPage0 ⟨[]⟩).1
      ⟨0x1003000, .Size4KiB⟩ PageTableConfiguration.empty ⟨true, true, true⟩ rfl,
    (map_shared_page_replaces_leaf_and_shared .Sv57x4 .Level1 _ _ sharedPage0 ⟨[]⟩).2
      0x8200000 PageTableConfiguration.shared_page_configuration
      PageTablePermission.shared_page_permission rfl⟩

end ACE
